import Mathlib

/-!
Verification development for the synthetic-data generator
(`app/synth_data/models.py` and `app/synth_data/codegen.py`).

The Python source is shallowly embedded below:
* the pydantic data model (`ForeignKey`, `Column`, `Table`, `Schema`) becomes
  plain structures, and its `model_validator` checks become the decidable
  predicate `validSchema`;
* `_toposort_tables` becomes `toposort_tables`: Python dict/set state is
  modelled by total functions `String → Int` / `String → List String`
  (all keys are table names, initialised like the comprehensions in the
  source); a Python `set` keeps only membership, so `set.add` is modelled
  by append-if-absent, and the `while q:` loop is modelled with an explicit
  fuel that exceeds the number of iterations the loop can perform
  (each table is enqueued at most once initially, and a node is enqueued
  later only at the single moment its monotonically decreasing indegree
  hits zero, so iterations never exceed `tables + edges`);
* the emitted script's `generate`, `_generate_scalar`, `_infer_provider`
  and `_pk_generator` become state-passing functions over `GState`.
  Randomness is split exactly as in the source: the seeded sources
  (`random` module and the `Faker` instance, both reset from the one seed)
  are a `Seeded` record of pure streams indexed by draw position, while
  `uuid.uuid4()` — which the seed does not control — is a separate
  entropy stream `e : Nat → String`.
-/

namespace SynthData

/-! ## Data model (`app/synth_data/models.py`) -/

inductive ColType
  | int | str | float | bool | date | datetime
deriving DecidableEq, Repr

structure ForeignKey where
  ref_table : String
  ref_column : String
  on_delete : Option String := none
deriving DecidableEq, Repr

structure Column where
  name : String
  type : ColType := .str
  description : Option String := none
  primary_key : Bool := false
  foreign_key : Option ForeignKey := none
  nullable : Bool := false
  unique : Bool := false
  faker : Option String := none
deriving DecidableEq, Repr

structure Table where
  name : String
  description : Option String := none
  columns : List Column
deriving DecidableEq, Repr

structure Schema where
  name : String := "synthetic_dataset"
  description : Option String := none
  tables : List Table
deriving DecidableEq, Repr

/-- `Table.foreign_keys` from the source: columns carrying a foreign key. -/
def Table.foreign_keys (t : Table) : List Column :=
  t.columns.filter (fun c => c.foreign_key ≠ none)

/-- `Schema.dependency_edges` from the source: one `(child_table, parent_table)`
pair per foreign-key column, duplicates included. -/
def Schema.dependency_edges (s : Schema) : List (String × String) :=
  s.tables.flatMap fun t =>
    t.columns.filterMap fun c =>
      match c.foreign_key with
      | some fk => some (t.name, fk.ref_table)
      | none => none

/-- Table names in declaration order (`[t.name for t in schema.tables]`). -/
def Schema.tableNames (s : Schema) : List String :=
  s.tables.map (·.name)

/-- The `Column` model validator: a column cannot be both primary key and
foreign key, and a primary-key column cannot be nullable. -/
def validColumn (c : Column) : Bool :=
  !(c.primary_key && c.foreign_key.isSome) && !(c.primary_key && c.nullable)

/-- The `Table` model validator: non-empty columns, unique column names,
at least one primary-key column. -/
def validTable (t : Table) : Bool :=
  decide (t.columns ≠ []) &&
  decide (t.columns.map (·.name)).Nodup &&
  t.columns.any (·.primary_key) &&
  t.columns.all validColumn

/-- The `Schema` model validator: non-empty table list, unique table names,
every foreign key resolves to an existing table and column, and all nested
validators hold. -/
def validSchema (s : Schema) : Bool :=
  decide (s.tables ≠ []) &&
  decide s.tableNames.Nodup &&
  s.tables.all validTable &&
  s.tables.all fun t => t.columns.all fun c =>
    match c.foreign_key with
    | none => true
    | some fk =>
        s.tables.any fun rt =>
          rt.name = fk.ref_table && rt.columns.any (fun rc => rc.name = fk.ref_column)

/-! ## Dependency resolver (`_toposort_tables`) -/

inductive TopoErr
  | selfRef (t : String)
  | cyclic (remaining : List String)
deriving DecidableEq, Repr

/-- The edge-scanning loop of `_toposort_tables`: raises on a self-referential
edge, silently skips edges with an endpoint outside the table set, and
otherwise performs the source's guarded set-add:

  `if parent not in out[parent]: out[parent].add(child); indeg[child] += 1`

Note the guard tests `parent`, not `child`: this transcribes the source
exactly.  `out[p]` is a Python `set`; its membership-only contents are
modelled by an append-if-absent list (first-insertion order). -/
def addEdges (tables : List String) :
    List (String × String) → (String → Int) → (String → List String) →
    Except TopoErr ((String → Int) × (String → List String))
  | [], ind, out => .ok (ind, out)
  | (c, p) :: es, ind, out =>
    if c = p then .error (.selfRef c)
    else if ¬ (p ∈ tables ∧ c ∈ tables) then addEdges tables es ind out
    else if p ∈ out p then addEdges tables es ind out
    else
      addEdges tables es
        (fun t => if t = c then ind t + 1 else ind t)
        (fun t => if t = p then (if c ∈ out p then out p else out p ++ [c]) else out t)

/-- One pop's inner `for child in out[t]` loop: decrement each child's
indegree and enqueue the children that reach zero, in iteration order. -/
def decChildren (ind : String → Int) :
    List String → ((String → Int) × List String)
  | [] => (ind, [])
  | c :: cs =>
      let ind' := fun t => if t = c then ind t - 1 else ind t
      let (ind'', enq) := decChildren ind' cs
      (ind'', (if ind' c = 0 then [c] else []) ++ enq)

/-- The `while q:` loop of Kahn's algorithm.  `σ` supplies the iteration
order of the Python set `out[t]` (the source iterates a hash set, whose
order is unspecified); the fuel bounds the number of pops, and is chosen
in `toposortWith` to exceed any possible number of iterations. -/
def kahnLoop (σ : String → List String → List String)
    (out : String → List String) :
    Nat → (String → Int) → List String → List String → List String
  | 0, _, _, acc => acc
  | _ + 1, _, [], acc => acc
  | fuel + 1, ind, t :: q, acc =>
      let (ind', enq) := decChildren ind (σ t (out t))
      kahnLoop σ out fuel ind' (q ++ enq) (acc ++ [t])

/-- `addEdges` applied to a schema's tables and dependency edges, with the
dict-comprehension initial states (`indeg = {t: 0 ...}`, `out = {t: set() ...}`). -/
def addEdgesOf (s : Schema) :
    Except TopoErr ((String → Int) × (String → List String)) :=
  addEdges s.tableNames s.dependency_edges (fun _ => 0) (fun _ => [])

/-- Fuel that strictly exceeds the number of loop iterations `_toposort_tables`
can perform (each node is enqueued at most once initially and at most once
when its monotonically decreasing indegree first reaches zero). -/
def topoFuel (s : Schema) : Nat :=
  s.tableNames.length + s.dependency_edges.length + 1

/-- The `ordered` list the Kahn loop produces for a schema (exposed so that
statements about the residual-cycle error can name it), or `none` when edge
scanning already failed. -/
def kahnResult (σ : String → List String → List String) (s : Schema) :
    Option (List String) :=
  match addEdgesOf s with
  | .error _ => none
  | .ok (ind, out) =>
      some (kahnLoop σ out (topoFuel s) ind
        (s.tableNames.filter (fun t => ind t = 0)) [])

/-- `_toposort_tables`, parameterised by the set-iteration order `σ`. -/
def toposortWith (σ : String → List String → List String) (s : Schema) :
    Except TopoErr (List String) :=
  match addEdgesOf s with
  | .error e => .error e
  | .ok (ind, out) =>
      let ordered := kahnLoop σ out (topoFuel s) ind
        (s.tableNames.filter (fun t => ind t = 0)) []
      if ordered.length = s.tableNames.length then .ok ordered
      else .error (.cyclic (s.tableNames.filter (fun t => ¬ t ∈ ordered)))

/-- `_toposort_tables` itself: children are visited in the out-set's
first-insertion order (one admissible hash-set iteration order). -/
def toposort_tables (s : Schema) : Except TopoErr (List String) :=
  toposortWith (fun _ l => l) s

/-! ## The emitted script (`generate_faker_python_script` and the functions
of the generated program) -/

/-- `s.lower()` on a column name. -/
def strLower (s : String) : String :=
  ⟨s.data.map Char.toLower⟩

/-- Python's substring test `sub in s`, on character lists. -/
def listContainsSub (sub : List Char) : List Char → Bool
  | [] => sub.isEmpty
  | c :: cs => sub.isPrefixOf (c :: cs) || listContainsSub sub cs

/-- `sub in s` for strings. -/
def strContainsSub (s sub : String) : Bool :=
  listContainsSub sub.data s.data

/-- `s.endswith(suf)`. -/
def strEndsWith (s suf : String) : Bool :=
  suf.data.isSuffixOf s.data

/-- `_infer_provider` from the emitted script: the name-based inference
table, checked in source order. -/
def infer_provider (colName : String) : Option String :=
  let n := strLower colName
  if n = "id" || strEndsWith n "_id" then some "uuid4"
  else if strContainsSub n "email" then some "email"
  else if n = "first_name" || n = "firstname" then some "first_name"
  else if n = "last_name" || n = "lastname" || n = "surname" then some "last_name"
  else if strContainsSub n "name" then some "name"
  else if strContainsSub n "company" || strContainsSub n "employer" then some "company"
  else if strContainsSub n "phone" || strContainsSub n "mobile" then some "phone_number"
  else if strContainsSub n "address" then some "street_address"
  else if strContainsSub n "city" then some "city"
  else if strContainsSub n "state" || strContainsSub n "province" then some "state"
  else if strContainsSub n "country" then some "country"
  else if strContainsSub n "zip" || strContainsSub n "postal" then some "postcode"
  else if strEndsWith n "_at" || strContainsSub n "timestamp" || strContainsSub n "datetime"
    then some "date_time"
  else if strContainsSub n "date" then some "date_object"
  else none

/-- Models `hasattr(fake, p)` for the provider names that occur in this
development: every name `_infer_provider` can return is a genuine `Faker`
attribute, and `"word"` is the default-string provider.  Strings outside
this list model hints that name no `Faker` attribute. -/
def fakerHasAttr (p : String) : Bool :=
  p ∈ ["uuid4", "email", "first_name", "last_name", "name", "company",
       "phone_number", "street_address", "city", "state", "country",
       "postcode", "date_time", "date_object", "word"]

/-- The seeded random sources of one generation run.  `Faker.seed(seed)` and
`random.seed(seed)` make every draw of the run a pure function of the seed
and the draw position, which is exactly what these streams are: `rand n` is
the `n`-th draw of the `random` module, `nullb n` the `n`-th
`random.random() < 0.05` comparison, and `fval p n` the (normalised, text)
result of the `n`-th `Faker` call when that call is provider `p`.  Two runs
with the same seed share one `Seeded` value. -/
structure Seeded where
  rand : Nat → Nat
  nullb : Nat → Bool
  fval : String → Nat → String

/-- Mutable state of one run of the script's `generate`: draw positions of
the three sources, the `pk_values` pools, and the per-(table, column)
uniqueness tracker (the source's per-table dict of per-column sets,
flattened to pair keys; a Python set is modelled by its membership list). -/
structure GState where
  rpos : Nat := 0
  fpos : Nat := 0
  epos : Nat := 0
  pools : List (String × List String) := []
  utrack : List ((String × String) × List String) := []

def GState.bumpR (st : GState) : GState := { st with rpos := st.rpos + 1 }

def GState.bumpF (st : GState) : GState := { st with fpos := st.fpos + 1 }

def GState.bumpE (st : GState) : GState := { st with epos := st.epos + 1 }

/-- Python dict lookup on an insertion-ordered association list. -/
def alookup {α β : Type} [DecidableEq α] (k : α) : List (α × β) → Option β
  | [] => none
  | (k', v) :: l => if k' = k then some v else alookup k l

/-- Python dict assignment: update in place, or append a new key at the end. -/
def aset {α β : Type} [DecidableEq α] (k : α) (v : β) : List (α × β) → List (α × β)
  | [] => [(k, v)]
  | (k', v') :: l => if k' = k then (k', v) :: l else (k', v') :: aset k v l

/-- Python `dict.setdefault`: insert the default only when the key is absent. -/
def asetdefault {α β : Type} [DecidableEq α] (k : α) (d : β) (l : List (α × β)) :
    List (α × β) :=
  match alookup k l with
  | some _ => l
  | none => l ++ [(k, d)]

/-- `pk_values[k].append(v)` (the key exists, put there by `setdefault`). -/
def aappend (k : String) (v : String) (l : List (String × List String)) :
    List (String × List String) :=
  aset k ((alookup k l).getD [] ++ [v]) l

/-- Errors of the emitted `generate` (its `RuntimeError`s, plus the
`KeyError` a table order naming an unknown table would raise). -/
inductive GenErr
  | unsupportedKey (table : String)
  | unknownTable (table : String)
  | missingParent (table col parent : String)
  | uniqFail (col : String)
deriving DecidableEq, Repr

/-- `provider = col.get("faker") or _infer_provider(col["name"])`: a present
non-empty hint wins outright; otherwise (absent or empty, i.e. falsy) the
name-based inference runs. -/
def resolveProvider (c : Column) : Option String :=
  match c.faker with
  | some f => if f = "" then infer_provider c.name else some f
  | none => infer_provider c.name

/-- Stands for the decimal text of `round(random.random() * 10_000, 2)`:
the claims depend only on its being a fixed function of the seeded draw. -/
def floatCell (d : Nat) : String :=
  toString (d % 10000) ++ "." ++ toString (d % 100)

/-- The type-based fallback of `gen()` inside `_generate_scalar`: reached
when no recognised provider is available.  `int`/`float`/`bool` consume the
`random` stream; `date`/`datetime` and the default `str` case call `Faker`
(`date_object`, `date_time`, `word`), consuming the faker stream. -/
def fallbackCell (S : Seeded) (typ : ColType) (st : GState) : String × GState :=
  match typ with
  | .int => (toString (1 + S.rand st.rpos % 10000000), st.bumpR)
  | .float => (floatCell (S.rand st.rpos), st.bumpR)
  | .bool => (if S.rand st.rpos % 2 = 1 then "True" else "False", st.bumpR)
  | .date => (S.fval "date_object" st.fpos, st.bumpF)
  | .datetime => (S.fval "date_time" st.fpos, st.bumpF)
  | .str => (S.fval "word" st.fpos, st.bumpF)

/-- One call of `gen()` inside `_generate_scalar`:
`if provider and hasattr(fake, provider): return getattr(fake, provider)()`
(with uuid/datetime results normalised to text, folded into the stream
value), else the type-based fallback. -/
def genOnce (S : Seeded) (provider : Option String) (typ : ColType) (st : GState) :
    String × GState :=
  match provider with
  | some p =>
      if p ≠ "" && fakerHasAttr p then (S.fval p st.fpos, st.bumpF)
      else fallbackCell S typ st
  | none => fallbackCell S typ st

/-- The `for _ in range(1000)` retry loop of `_generate_scalar` for unique
columns: regenerate until the value is unseen, else `RuntimeError`. -/
def uniqueRetry (S : Seeded) (provider : Option String) (typ : ColType)
    (colName : String) (seen : List String) :
    Nat → GState → Except GenErr (String × GState × List String)
  | 0, _ => .error (.uniqFail colName)
  | k + 1, st =>
      let (v, st') := genOnce S provider typ st
      if v ∈ seen then uniqueRetry S provider typ colName seen k st'
      else .ok (v, st', seen ++ [v])

/-- `_generate_scalar`: resolve the provider, then either the unique-retry
path (with the per-(table, column) `seen` set, created by `setdefault` and
updated with the accepted value) or a single `gen()`. -/
def generate_scalar (S : Seeded) (tname : String) (c : Column) (st : GState) :
    Except GenErr (String × GState) :=
  let provider := resolveProvider c
  if c.unique then
    let st0 := { st with utrack := asetdefault (tname, c.name) [] st.utrack }
    let seen := (alookup (tname, c.name) st0.utrack).getD []
    match uniqueRetry S provider c.type c.name seen 1000 st0 with
    | .error er => .error er
    | .ok (v, st', seen') =>
        .ok (v, { st' with utrack := aset (tname, c.name) seen' st'.utrack })
  else .ok (genOnce S provider c.type st)

/-- `_pk_generator`: an `int` primary key is the 1-based row index; any
other type is `str(uuid.uuid4())`, drawn from the OS entropy stream `e`,
which the seed does not control. -/
def pk_generator (c : Column) (i : Nat) (e : Nat → String) (st : GState) :
    String × GState :=
  if c.type = .int then (toString (i + 1), st)
  else (e st.epos, st.bumpE)

/-- The per-column body of the row loop in `generate`: primary key first,
then the foreign-key branch (uniform `random.choice` from the parent's
accumulated pool, fatal when the pool is empty), then the 5% nullability
draw for nullable columns, then scalar synthesis. -/
def genCell (S : Seeded) (e : Nat → String) (tname : String) (c : Column)
    (i : Nat) (st : GState) : Except GenErr (String × GState) :=
  if c.primary_key then .ok (pk_generator c i e st)
  else
    match c.foreign_key with
    | some fk =>
        let candidates := (alookup fk.ref_table st.pools).getD []
        if candidates.isEmpty then .error (.missingParent tname c.name fk.ref_table)
        else .ok (candidates.getD (S.rand st.rpos % candidates.length) "", st.bumpR)
    | none =>
        if c.nullable then
          if S.nullb st.rpos then .ok ("", st.bumpR)
          else generate_scalar S tname c st.bumpR
        else generate_scalar S tname c st

/-- `for c in cols: row[...] = ...`: one cell per column, in declared order. -/
def genCells (S : Seeded) (e : Nat → String) (tname : String) (i : Nat) :
    List Column → GState → Except GenErr (List String × GState)
  | [], st => .ok ([], st)
  | c :: cs, st =>
      match genCell S e tname c i st with
      | .error er => .error er
      | .ok (v, st') =>
          match genCells S e tname i cs st' with
          | .error er => .error er
          | .ok (vs, st'') => .ok (v :: vs, st'')

/-- `row[key]` for a row dict built by assigning each column's cell under
its name in order (later duplicates would overwrite, hence the reverse). -/
def dictGet (cols : List Column) (cells : List String) (key : String) : String :=
  (alookup key (((cols.map (·.name)).zip cells).reverse)).getD ""

/-- The `for i in range(rows_per_table)` loop: build the row's cells, write
the row, and append `row[pk_col["name"]]` to the table's pool. -/
def rowLoop (S : Seeded) (e : Nat → String) (tname : String) (cols : List Column)
    (pkName : String) : Nat → Nat → GState → Except GenErr (List (List String) × GState)
  | 0, _, st => .ok ([], st)
  | k + 1, i, st =>
      match genCells S e tname i cols st with
      | .error er => .error er
      | .ok (cells, st1) =>
          let st2 := { st1 with pools := aappend tname (dictGet cols cells pkName) st1.pools }
          match rowLoop S e tname cols pkName k (i + 1) st2 with
          | .error er => .error er
          | .ok (rows, st3) => .ok (cells :: rows, st3)

/-- `tables_by_name = {t["name"]: t for t in SCHEMA["tables"]}` (on a
duplicate name the later table wins, hence the reverse). -/
def tablesByName (s : Schema) (n : String) : Option Table :=
  s.tables.reverse.find? (fun t => t.name = n)

/-- One iteration of `for table_name in TABLE_ORDER`: look the table up,
require exactly one primary-key column, `setdefault` the pool, generate the
rows.  (The per-table `unique_tracker` `setdefault` is a no-op in the
flattened (table, column)-keyed tracker model.) -/
def processTable (S : Seeded) (e : Nat → String) (rows : Nat) (s : Schema)
    (tname : String) (st : GState) : Except GenErr (List (List String) × GState) :=
  match tablesByName s tname with
  | none => .error (.unknownTable tname)
  | some tbl =>
      match tbl.columns.filter (·.primary_key) with
      | [pkCol] =>
          let st1 := { st with pools := asetdefault tname [] st.pools }
          rowLoop S e tname tbl.columns pkCol.name rows 0 st1
      | _ => .error (.unsupportedKey tname)

/-- The whole table loop, emitting one `(table, rows)` file per order entry. -/
def processTables (S : Seeded) (e : Nat → String) (rows : Nat) (s : Schema) :
    List String → GState → Except GenErr (List (String × List (List String)) × GState)
  | [], st => .ok ([], st)
  | t :: ts, st =>
      match processTable S e rows s t st with
      | .error er => .error er
      | .ok (trows, st') =>
          match processTables S e rows s ts st' with
          | .error er => .error er
          | .ok (rest, st'') => .ok ((t, trows) :: rest, st'')

/-- The emitted script's `generate`: its observable output is the written
CSV data, one `(table name, list of rows)` entry per `TABLE_ORDER` element,
each row a list of cells in declared column order (the header line is the
declared column names and is determined by the schema alone). -/
def generate (s : Schema) (order : List String) (rows : Nat) (S : Seeded)
    (e : Nat → String) : Except GenErr (List (String × List (List String))) :=
  match processTables S e rows s order {} with
  | .error er => .error er
  | .ok (out, _) => .ok out

inductive ScriptErr
  | badRows
  | topo (e : TopoErr)
deriving DecidableEq, Repr

/-- The data `generate_faker_python_script` embeds into the emitted text:
the canonicalised schema, the precomputed `TABLE_ORDER`, `rows_per_table`
and the seed.  Executing the artifact runs `generate` on exactly these. -/
structure Script where
  schema : Schema
  table_order : List String
  rows_per_table : Nat
  seed : Int

/-- `generate_faker_python_script`: reject `rows_per_table <= 0`, run the
resolver, embed schema + order + parameters into the artifact. -/
def generate_faker_python_script (s : Schema) (rows : Nat) (seed : Int) :
    Except ScriptErr Script :=
  if rows = 0 then .error .badRows
  else
    match toposort_tables s with
    | .error er => .error (.topo er)
    | .ok order => .ok ⟨s, order, rows, seed⟩

/-- Executing the emitted artifact: run `generate` on the embedded data with
this run's seeded streams and this run's OS entropy. -/
def runScript (sc : Script) (S : Seeded) (e : Nat → String) :
    Except GenErr (List (String × List (List String))) :=
  generate sc.schema sc.table_order sc.rows_per_table S e

end SynthData

namespace SynthData

/-! Concrete schemas used by the claim theorems below. -/

def pkInt (n : String) : Column := { name := n, type := .int, primary_key := true }
def fkCol (n rt rc : String) : Column := { name := n, type := .int, foreign_key := some ⟨rt, rc, none⟩ }

def dupFkSchema : Schema := { tables := [
  { name := "Y", columns := [pkInt "yid"] },
  { name := "X", columns := [pkInt "xid", fkCol "y1" "Y" "yid", fkCol "y2" "Y" "yid"] } ] }

def cycSchema : Schema := { tables := [
  { name := "A", columns := [pkInt "aid", fkCol "b" "B" "bid"] },
  { name := "B", columns := [pkInt "bid", fkCol "c" "C" "cid"] },
  { name := "C", columns := [pkInt "cid", fkCol "a" "A" "aid"] } ] }

def selfSchema : Schema := { tables := [
  { name := "T", columns := [pkInt "tid", fkCol "t" "T" "tid"] } ] }

def diamondSchema : Schema := { tables := [
  { name := "P", columns := [pkInt "pid"] },
  { name := "A", columns := [pkInt "aid", fkCol "p" "P" "pid"] },
  { name := "B", columns := [pkInt "bid", fkCol "p" "P" "pid"] } ] }

end SynthData

namespace SynthData

/-! ## Auxiliary definitions used in claim statements -/

/-- Index of the first occurrence of `x` in `l` (`l.index(x)`). -/
def posIn : List String → String → Nat
  | [], _ => 0
  | y :: l, x => if y = x then 0 else posIn l x + 1

/-- The indegree `_toposort_tables` builds for table `t` (0 when edge
scanning fails before the graph exists). -/
def buildIndeg (s : Schema) (t : String) : Int :=
  match addEdgesOf s with
  | .ok (ind, _) => ind t
  | .error _ => 0

/-- The out-set `_toposort_tables` builds for table `t`, in first-insertion
order. -/
def buildOut (s : Schema) (t : String) : List String :=
  match addEdgesOf s with
  | .ok (_, out) => out t
  | .error _ => []

/-- The `j`-th declared column of the table generation writes under `tname`. -/
def colOf (s : Schema) (tname : String) (j : Nat) : Option Column :=
  match tablesByName s tname with
  | some tbl => tbl.columns.get? j
  | none => none

/-- The name of the unique primary-key column (what `generate` binds as
`pk_col`), when exactly one column has the flag. -/
def pkColName (tbl : Table) : Option String :=
  match tbl.columns.filter (·.primary_key) with
  | [pk] => some pk.name
  | _ => none

/-- The values of table `p`'s primary-key column in the generated output:
for each emitted row of `p`, the cell written under the primary-key
column's name. -/
def pkCells (s : Schema) (out : List (String × List (List String)))
    (p : String) : List String :=
  match tablesByName s p, alookup p out with
  | some tbl, some trows =>
      match pkColName tbl with
      | some pkname => trows.map (fun r => dictGet tbl.columns r pkname)
      | none => []
  | _, _ => []

/-- Every primary-key column of the schema has scalar type `int` (so
`_pk_generator` never reaches its `uuid.uuid4()` branch). -/
def allIntPk (s : Schema) : Bool :=
  s.tables.all fun t => t.columns.all fun c => !c.primary_key || c.type == ColType.int

/-- Whether a generation result is the missing-parent-rows `RuntimeError`. -/
def isMissingParentErr {α : Type} : Except GenErr α → Bool
  | .error (.missingParent _ _ _) => true
  | _ => false

/-- Seeded streams used by concrete runs in witnesses/counterexamples. -/
def S0 : Seeded :=
  { rand := fun n => n, nullb := fun _ => false, fval := fun m n => m ++ toString n }

/-- Seeded streams whose every 5%-null draw fires. -/
def Snull : Seeded :=
  { rand := fun n => n, nullb := fun _ => true, fval := fun m n => m ++ toString n }

/-- A concrete OS-entropy stream. -/
def e0 : Nat → String := fun n => "u" ++ toString n

def usersOrders : Schema := { tables := [
  { name := "users", columns := [pkInt "user_id", { name := "email", unique := true }] },
  { name := "orders", columns := [pkInt "order_id", fkCol "user_id" "users" "user_id"] } ] }

/-- A schema whose only primary key has a non-`int` type. -/
def strPkSchema : Schema := { tables := [
  { name := "t", columns := [{ name := "code", type := .str, primary_key := true }] } ] }

/-- One table with an `int` primary key and a unique nullable column. -/
def uniqNullSchema : Schema := { tables := [
  { name := "t", columns := [pkInt "id", { name := "u", unique := true, nullable := true }] } ] }

/-- Invariant of the graph `_toposort_tables` builds: out-sets are duplicate
free, every recorded edge has distinct endpoints inside the table set, and a
node's indegree dominates its number of distinct parents (the indegree counts
edge occurrences, the out-sets deduplicate). -/
def GraphInv (tables : List String) (ind : String → Int)
    (out : String → List String) : Prop :=
  (∀ t, (out t).Nodup) ∧
  (∀ p c, c ∈ out p → c ∈ tables ∧ p ∈ tables ∧ c ≠ p) ∧
  (∀ c, (((tables.filter (fun p => decide (c ∈ out p))).length : Int) ≤ ind c))

/-- `pk_values` only ever grows: every value present under a key stays
present (pools are appended to, never truncated). -/
def poolMem (P Q : List (String × List String)) : Prop :=
  ∀ p v, v ∈ (alookup p P).getD [] → v ∈ (alookup p Q).getD []

end SynthData

namespace SynthData

/-! ## Helper lemmas: positions, filtered counts, one pop's decrements -/

theorem posIn_lt_length {l : List String} {x : String} (h : x ∈ l) :
    posIn l x < l.length := by
  induction l with
  | nil => cases h
  | cons y t ih =>
      by_cases hyx : y = x
      · simp [posIn, hyx]
      · rcases List.mem_cons.mp h with h' | h'
        · exact absurd h'.symm hyx
        · simpa [posIn, hyx] using ih h'

theorem posIn_append_of_mem {l : List String} (l' : List String) {x : String}
    (h : x ∈ l) : posIn (l ++ l') x = posIn l x := by
  induction l with
  | nil => cases h
  | cons y t ih =>
      by_cases hyx : y = x
      · simp [posIn, hyx]
      · rcases List.mem_cons.mp h with h' | h'
        · exact absurd h'.symm hyx
        · simp [posIn, hyx, ih h']

theorem posIn_append_of_not_mem {l : List String} (l' : List String) {x : String}
    (h : x ∉ l) : posIn (l ++ l') x = l.length + posIn l' x := by
  induction l with
  | nil => simp [posIn]
  | cons y t ih =>
      have hyx : y ≠ x := fun e => h (e ▸ List.mem_cons_self y t)
      have hxt : x ∉ t := fun e => h (List.mem_cons_of_mem y e)
      simp [posIn, hyx, ih hxt]
      omega

theorem posIn_append_singleton {l : List String} {t : String} (h : t ∉ l) :
    posIn (l ++ [t]) t = l.length := by
  simp [posIn_append_of_not_mem _ h, posIn]

theorem length_filter_le_of_nodup_subset {l l' : List String} (P : String → Bool)
    (hnd : l.Nodup) (hsub : ∀ x ∈ l, x ∈ l') :
    (l.filter P).length ≤ (l'.filter P).length := by
  have h1 : List.Subperm (l.filter P) (l'.filter P) := by
    refine List.Nodup.subperm (List.Nodup.filter P hnd) ?_
    intro x hx
    rcases List.mem_filter.mp hx with ⟨hxl, hPx⟩
    exact List.mem_filter.mpr ⟨hsub x hxl, hPx⟩
  exact h1.length_le

theorem length_filter_or_le {l : List String} (hnd : l.Nodup) (P : String → Bool)
    (p0 : String) :
    (l.filter (fun p => P p || decide (p = p0))).length ≤ (l.filter P).length + 1 := by
  induction l with
  | nil => simp
  | cons y t ih =>
      obtain ⟨hy, ht⟩ := List.nodup_cons.mp hnd
      by_cases hyp : y = p0
      · subst hyp
        have hcongr : t.filter (fun p => P p || decide (p = y)) = t.filter P := by
          refine List.filter_congr ?_
          intro p hp
          have : p ≠ y := fun e => hy (e ▸ hp)
          simp [this]
        by_cases hPy : P y = true
        · simp [List.filter_cons, hPy, hcongr]
        · simp [List.filter_cons, hPy, hcongr]
      · by_cases hPy : P y = true
        · simpa [List.filter_cons, hPy, hyp] using ih ht
        · simpa [List.filter_cons, hPy, hyp] using ih ht

theorem decChildren_eq (cs : List String) (h : cs.Nodup) (ind : String → Int) :
    decChildren ind cs =
      (fun t => if t ∈ cs then ind t - 1 else ind t,
       cs.filter (fun c => decide (ind c = 1))) := by
  induction cs generalizing ind with
  | nil =>
      refine Prod.ext ?_ ?_
      · funext t; simp [decChildren]
      · simp [decChildren]
  | cons c cs ih =>
      obtain ⟨hc, hcs⟩ := List.nodup_cons.mp h
      have step := ih hcs (fun t => if t = c then ind t - 1 else ind t)
      refine Prod.ext ?_ ?_
      · show (decChildren ind (c :: cs)).1 = _
        simp only [decChildren, step]
        funext t
        by_cases htc : t = c
        · subst htc
          simp [hc]
        · by_cases htcs : t ∈ cs <;> simp [htc, htcs]
      · show (decChildren ind (c :: cs)).2 = _
        simp only [decChildren, step]
        have hcongr : cs.filter (fun x => decide ((if x = c then ind x - 1 else ind x) = 1))
            = cs.filter (fun x => decide (ind x = 1)) := by
          refine List.filter_congr ?_
          intro x hx
          have : x ≠ c := fun e => hc (e ▸ hx)
          simp [this]
        by_cases hic : ind c = 1
        · simp [List.filter_cons, hic, hcongr]
        · have : ¬ (ind c - 1 = 0) := by omega
          simp [List.filter_cons, hic, hcongr, this]

end SynthData

namespace SynthData

/-! ## Edge-scanning lemmas -/

theorem GraphInv.step {tables : List String} {ind : String → Int}
    {out : String → List String} {c p : String}
    (htnd : tables.Nodup) (hinv : GraphInv tables ind out)
    (hcp : c ≠ p) (hp : p ∈ tables) (hc : c ∈ tables) :
    GraphInv tables (fun t => if t = c then ind t + 1 else ind t)
      (fun t => if t = p then (if c ∈ out p then out p else out p ++ [c]) else out t) := by
  obtain ⟨hnd, hends, hcnt⟩ := hinv
  refine ⟨?_, ?_, ?_⟩
  · intro t
    by_cases htp : t = p
    · subst htp
      by_cases hco : c ∈ out t
      · simpa [hco] using hnd t
      · simp only [if_pos rfl, if_neg hco]
        refine List.nodup_append.mpr ⟨hnd t, List.nodup_singleton c, ?_⟩
        intro a ha ha'
        have : a = c := by simpa using ha'
        exact hco (this ▸ ha)
    · simpa [htp] using hnd t
  · intro p' c' hmem
    by_cases hp' : p' = p
    · subst hp'
      by_cases hco : c ∈ out p'
      · simp only [if_pos rfl, if_pos hco] at hmem
        exact hends p' c' hmem
      · simp only [if_pos rfl, if_neg hco] at hmem
        rcases List.mem_append.mp hmem with h' | h'
        · exact hends p' c' h'
        · have : c' = c := by simpa using h'
          subst this
          exact ⟨hc, hp, hcp⟩
    · simp only [if_neg hp'] at hmem
      exact hends p' c' hmem
  · intro c''
    by_cases hcc : c'' = c
    · subst hcc
      have hcongr :
          tables.filter (fun q => decide (c'' ∈
              (if q = p then (if c'' ∈ out p then out p else out p ++ [c'']) else out q)))
            = tables.filter (fun q => decide (c'' ∈ out q) || decide (q = p)) := by
        refine List.filter_congr ?_
        intro q _
        by_cases hqp : q = p
        · subst hqp
          by_cases hco : c'' ∈ out q <;> simp [hco]
        · simp [hqp]
      rw [hcongr]
      have h1 := length_filter_or_le htnd (fun q => decide (c'' ∈ out q)) p
      have h2 := hcnt c''
      have h1' : ((tables.filter (fun q => decide (c'' ∈ out q) || decide (q = p))).length : Int)
          ≤ ((tables.filter (fun q => decide (c'' ∈ out q))).length : Int) + 1 := by
        exact_mod_cast h1
      show ((tables.filter (fun q => decide (c'' ∈ out q) || decide (q = p))).length : Int)
          ≤ if c'' = c'' then ind c'' + 1 else ind c''
      rw [if_pos rfl]
      omega
    · have hcongr :
          tables.filter (fun q => decide (c'' ∈
              (if q = p then (if c ∈ out p then out p else out p ++ [c]) else out q)))
            = tables.filter (fun q => decide (c'' ∈ out q)) := by
        refine List.filter_congr ?_
        intro q _
        by_cases hqp : q = p
        · subst hqp
          by_cases hco : c ∈ out q
          · simp [hco]
          · simp only [if_pos rfl, if_neg hco]
            have : (c'' ∈ out q ++ [c]) ↔ (c'' ∈ out q) := by
              simp [List.mem_append, hcc]
            simp [this]
        · simp [hqp]
      rw [hcongr]
      simpa [hcc] using hcnt c''

theorem addEdges_ok_inv {tables : List String} (htnd : tables.Nodup) :
    ∀ (es : List (String × String)) (ind : String → Int) (out : String → List String)
      (r : (String → Int) × (String → List String)),
      addEdges tables es ind out = .ok r → GraphInv tables ind out →
      GraphInv tables r.1 r.2 := by
  intro es
  induction es with
  | nil =>
      intro ind out r h hinv
      simp only [addEdges, Except.ok.injEq] at h
      rw [← h]
      exact hinv
  | cons e es ih =>
      intro ind out r h hinv
      obtain ⟨c, p⟩ := e
      simp only [addEdges] at h
      by_cases hcp : c = p
      · rw [if_pos hcp] at h; cases h
      · rw [if_neg hcp] at h
        by_cases hmem : p ∈ tables ∧ c ∈ tables
        · rw [if_neg (not_not_intro hmem)] at h
          by_cases hpp : p ∈ out p
          · rw [if_pos hpp] at h
            exact ih _ _ _ h hinv
          · rw [if_neg hpp] at h
            exact ih _ _ _ h (GraphInv.step htnd hinv hcp hmem.1 hmem.2)
        · rw [if_pos hmem] at h
          exact ih _ _ _ h hinv

theorem addEdges_ok_mono {tables : List String} :
    ∀ (es : List (String × String)) (ind : String → Int) (out : String → List String)
      (r : (String → Int) × (String → List String)),
      addEdges tables es ind out = .ok r →
      ∀ p c, c ∈ out p → c ∈ r.2 p := by
  intro es
  induction es with
  | nil =>
      intro ind out r h p c hmem
      simp only [addEdges, Except.ok.injEq] at h
      rw [← h]
      exact hmem
  | cons e es ih =>
      intro ind out r h p' c' hmem
      obtain ⟨c, p⟩ := e
      simp only [addEdges] at h
      by_cases hcp : c = p
      · rw [if_pos hcp] at h; cases h
      · rw [if_neg hcp] at h
        by_cases hmem2 : p ∈ tables ∧ c ∈ tables
        · rw [if_neg (not_not_intro hmem2)] at h
          by_cases hpp : p ∈ out p
          · rw [if_pos hpp] at h
            exact ih _ _ _ h p' c' hmem
          · rw [if_neg hpp] at h
            refine ih _ _ _ h p' c' ?_
            by_cases hp' : p' = p
            · subst hp'
              by_cases hco : c ∈ out p'
              · simpa [hco] using hmem
              · simp only [if_pos rfl, if_neg hco]
                exact List.mem_append.mpr (Or.inl hmem)
            · simpa [hp'] using hmem
        · rw [if_pos hmem2] at h
          exact ih _ _ _ h p' c' hmem

theorem addEdges_ok_edge_mem {tables : List String} (htnd : tables.Nodup) :
    ∀ (es : List (String × String)) (ind : String → Int) (out : String → List String)
      (r : (String → Int) × (String → List String)),
      addEdges tables es ind out = .ok r → GraphInv tables ind out →
      ∀ cp ∈ es, cp.1 ∈ tables → cp.2 ∈ tables → cp.1 ∈ r.2 cp.2 := by
  intro es
  induction es with
  | nil => intro ind out r h hinv cp hcp; cases hcp
  | cons e es ih =>
      intro ind out r h hinv cp hcpmem hc1 hc2
      obtain ⟨c, p⟩ := e
      simp only [addEdges] at h
      by_cases hcp : c = p
      · rw [if_pos hcp] at h; cases h
      · rw [if_neg hcp] at h
        by_cases hmem2 : p ∈ tables ∧ c ∈ tables
        · rw [if_neg (not_not_intro hmem2)] at h
          by_cases hpp : p ∈ out p
          · exact absurd rfl (hinv.2.1 p p hpp).2.2
          · rw [if_neg hpp] at h
            rcases List.mem_cons.mp hcpmem with he | he
            · subst he
              have hstep : c ∈ (fun t => if t = p then
                  (if c ∈ out p then out p else out p ++ [c]) else out t) p := by
                by_cases hco : c ∈ out p
                · simp [hco]
                · simp [hco]
              exact addEdges_ok_mono _ _ _ _ h _ _ hstep
            · exact ih _ _ _ h (GraphInv.step htnd hinv hcp hmem2.1 hmem2.2) cp he hc1 hc2
        · rw [if_pos hmem2] at h
          rcases List.mem_cons.mp hcpmem with he | he
          · subst he
            exact absurd ⟨hc2, hc1⟩ hmem2
          · exact ih _ _ _ h hinv cp he hc1 hc2

theorem addEdges_ok_noself {tables : List String} :
    ∀ (es : List (String × String)) (ind : String → Int) (out : String → List String)
      (r : (String → Int) × (String → List String)),
      addEdges tables es ind out = .ok r → ∀ x, (x, x) ∉ es := by
  intro es
  induction es with
  | nil => intro ind out r h x hx; cases hx
  | cons e es ih =>
      intro ind out r h x hx
      obtain ⟨c, p⟩ := e
      simp only [addEdges] at h
      by_cases hcp : c = p
      · rw [if_pos hcp] at h; cases h
      · rcases List.mem_cons.mp hx with he | he
        · have : x = c ∧ x = p := by
            constructor <;> [exact congrArg Prod.fst he; exact congrArg Prod.snd he]
          exact hcp (this.1 ▸ this.2 ▸ rfl)
        · rw [if_neg hcp] at h
          by_cases hmem2 : p ∈ tables ∧ c ∈ tables
          · rw [if_neg (not_not_intro hmem2)] at h
            by_cases hpp : p ∈ out p
            · rw [if_pos hpp] at h
              exact ih _ _ _ h x he
            · rw [if_neg hpp] at h
              exact ih _ _ _ h x he
          · rw [if_pos hmem2] at h
            exact ih _ _ _ h x he

theorem addEdges_self_err {tables : List String} :
    ∀ (es : List (String × String)) (ind : String → Int) (out : String → List String),
      (∃ x, (x, x) ∈ es) →
      ∃ er, addEdges tables es ind out = .error er := by
  intro es
  induction es with
  | nil => intro ind out ⟨x, hx⟩; cases hx
  | cons e es ih =>
      intro ind out ⟨x, hx⟩
      obtain ⟨c, p⟩ := e
      by_cases hcp : c = p
      · exact ⟨.selfRef c, by simp [addEdges, hcp]⟩
      · have hxes : (x, x) ∈ es := by
          rcases List.mem_cons.mp hx with he | he
          · have : x = c ∧ x = p := by
              constructor <;> [exact congrArg Prod.fst he; exact congrArg Prod.snd he]
            exact absurd (this.1 ▸ this.2 ▸ rfl) hcp
          · exact he
        simp only [addEdges, if_neg hcp]
        by_cases hmem2 : p ∈ tables ∧ c ∈ tables
        · rw [if_neg (not_not_intro hmem2)]
          by_cases hpp : p ∈ out p
          · rw [if_pos hpp]
            exact ih _ _ ⟨x, hxes⟩
          · rw [if_neg hpp]
            exact ih _ _ ⟨x, hxes⟩
        · rw [if_pos hmem2]
          exact ih _ _ ⟨x, hxes⟩

end SynthData

namespace SynthData

/-! ## Kahn loop soundness -/

theorem kahnLoop_sound
    {tables : List String} (htnd : tables.Nodup)
    {out : String → List String} {ind0 : String → Int}
    (hod : ∀ t, (out t).Nodup)
    (hend : ∀ p c, c ∈ out p → c ∈ tables ∧ p ∈ tables ∧ c ≠ p)
    (hcnt : ∀ c, (((tables.filter (fun p => decide (c ∈ out p))).length : Int) ≤ ind0 c)) :
    ∀ (fuel : Nat) (ind : String → Int) (q acc : List String),
      (∀ c, ind c = ind0 c - ((acc.filter (fun p => decide (c ∈ out p))).length : Int)) →
      ((acc ++ q).Nodup) →
      (∀ x ∈ acc ++ q, x ∈ tables) →
      (∀ x ∈ acc ++ q, ∀ p, x ∈ out p → p ∈ acc) →
      (∀ x ∈ acc, ∀ p, x ∈ out p → posIn acc p < posIn acc x) →
      ((kahnLoop (fun _ l => l) out fuel ind q acc).Nodup ∧
       (∀ x ∈ kahnLoop (fun _ l => l) out fuel ind q acc, x ∈ tables) ∧
       (∀ x ∈ kahnLoop (fun _ l => l) out fuel ind q acc, ∀ p, x ∈ out p →
         p ∈ kahnLoop (fun _ l => l) out fuel ind q acc ∧
         posIn (kahnLoop (fun _ l => l) out fuel ind q acc) p
           < posIn (kahnLoop (fun _ l => l) out fuel ind q acc) x)) := by
  intro fuel
  induction fuel with
  | zero =>
      intro ind q acc hInd hnd hmem hpar hord
      simp only [kahnLoop]
      refine ⟨(List.nodup_append.mp hnd).1, ?_, ?_⟩
      · intro x hx; exact hmem x (List.mem_append.mpr (Or.inl hx))
      · intro x hx p hp
        exact ⟨hpar x (List.mem_append.mpr (Or.inl hx)) p hp, hord x hx p hp⟩
  | succ fuel ih =>
      intro ind q acc hInd hnd hmem hpar hord
      cases q with
      | nil =>
          simp only [kahnLoop]
          refine ⟨(List.nodup_append.mp hnd).1, ?_, ?_⟩
          · intro x hx; exact hmem x (List.mem_append.mpr (Or.inl hx))
          · intro x hx p hp
            exact ⟨hpar x (List.mem_append.mpr (Or.inl hx)) p hp, hord x hx p hp⟩
      | cons t q' =>
          have hodt := hod t
          have hunfold : kahnLoop (fun _ l => l) out (fuel + 1) ind (t :: q') acc
              = kahnLoop (fun _ l => l) out fuel
                  (fun x => if x ∈ out t then ind x - 1 else ind x)
                  (q' ++ (out t).filter (fun c => decide (ind c = 1)))
                  (acc ++ [t]) := by
            simp only [kahnLoop]
            rw [decChildren_eq (out t) hodt ind]
          have hsplit : acc ++ t :: q' = (acc ++ [t]) ++ q' := by simp
          have hnd2 : ((acc ++ [t]) ++ q').Nodup := by rw [← hsplit]; exact hnd
          obtain ⟨hndat, hq'nd, hdisj2⟩ := List.nodup_append.mp hnd2
          obtain ⟨hacnd, _, hdisj1⟩ := List.nodup_append.mp hndat
          have htacc : t ∉ acc := fun h => hdisj1 h (List.mem_singleton.mpr rfl)
          have htmem : t ∈ acc ++ t :: q' :=
            List.mem_append.mpr (Or.inr (List.mem_cons_self t q'))
          have hmemat : ∀ x ∈ acc ++ [t], x ∈ acc ++ t :: q' := by
            intro x hx
            rcases List.mem_append.mp hx with h | h
            · exact List.mem_append.mpr (Or.inl h)
            · exact (List.mem_singleton.mp h) ▸ htmem
          have hmemq' : ∀ x ∈ q', x ∈ acc ++ t :: q' := fun x hx =>
            List.mem_append.mpr (Or.inr (List.mem_cons_of_mem _ hx))
          have henqprop : ∀ x ∈ (out t).filter (fun c => decide (ind c = 1)),
              x ∈ out t ∧ ind x = 1 := by
            intro x hx
            have h' := List.mem_filter.mp hx
            exact ⟨h'.1, by simpa using h'.2⟩
          have hparents : ∀ x, x ∈ out t → ind x = 1 → ∀ p, x ∈ out p → p ∈ acc ++ [t] := by
            intro x hxt hx1 p hxp
            by_contra hnp
            have hptab : p ∈ tables := (hend p x hxp).2.1
            have hndL : ((acc ++ [t]) ++ [p]).Nodup := by
              refine List.nodup_append.mpr ⟨hndat, List.nodup_singleton p, ?_⟩
              intro a ha ha'
              exact hnp ((List.mem_singleton.mp ha') ▸ ha)
            have hsubL : ∀ y ∈ (acc ++ [t]) ++ [p], y ∈ tables := by
              intro y hy
              rcases List.mem_append.mp hy with h | h
              · exact hmem y (hmemat y h)
              · exact (List.mem_singleton.mp h) ▸ hptab
            have hle := length_filter_le_of_nodup_subset (fun r => decide (x ∈ out r)) hndL hsubL
            have hcx := hcnt x
            have hIx := hInd x
            have hPt : (decide (x ∈ out t)) = true := by simpa using hxt
            have hPp : (decide (x ∈ out p)) = true := by simpa using hxp
            have hlen : ((((acc ++ [t]) ++ [p]).filter (fun r => decide (x ∈ out r))).length)
                = ((acc.filter (fun r => decide (x ∈ out r))).length) + 2 := by
              simp [List.filter_append, hPt, hPp]
            rw [hlen] at hle
            have hle' : (((acc.filter (fun r => decide (x ∈ out r))).length : Int) + 2)
                ≤ ((tables.filter (fun r => decide (x ∈ out r))).length : Int) := by
              exact_mod_cast hle
            omega
          rw [hunfold]
          refine ih (fun x => if x ∈ out t then ind x - 1 else ind x)
            (q' ++ (out t).filter (fun c => decide (ind c = 1))) (acc ++ [t]) ?_ ?_ ?_ ?_ ?_
          · intro c
            show (if c ∈ out t then ind c - 1 else ind c)
                = ind0 c - (((acc ++ [t]).filter (fun p => decide (c ∈ out p))).length : Int)
            by_cases hct : c ∈ out t
            · rw [if_pos hct, hInd c, List.filter_append]
              have h1 : ([t].filter (fun p => decide (c ∈ out p))) = [t] := by simp [hct]
              rw [h1]
              simp only [List.length_append, List.length_singleton]
              push_cast
              ring
            · rw [if_neg hct, hInd c, List.filter_append]
              have h1 : ([t].filter (fun p => decide (c ∈ out p))) = [] := by simp [hct]
              rw [h1]
              simp
          · refine List.nodup_append.mpr ⟨hndat, ?_, ?_⟩
            · refine List.nodup_append.mpr
                ⟨hq'nd, List.Nodup.filter _ hodt, ?_⟩
              intro a ha ha'
              obtain ⟨hat, _⟩ := henqprop a ha'
              exact htacc (hpar a (hmemq' a ha) t hat)
            · intro a ha ha'
              rcases List.mem_append.mp ha' with h | h
              · exact hdisj2 ha h
              · obtain ⟨hat, _⟩ := henqprop a h
                rcases List.mem_append.mp ha with h2 | h2
                · exact htacc (hpar a (List.mem_append.mpr (Or.inl h2)) t hat)
                · exact (hend t a hat).2.2 (List.mem_singleton.mp h2)
          · intro x hx
            rcases List.mem_append.mp hx with h | h
            · exact hmem x (hmemat x h)
            · rcases List.mem_append.mp h with h' | h'
              · exact hmem x (hmemq' x h')
              · exact (hend t x (henqprop x h').1).1
          · intro x hx p hp
            rcases List.mem_append.mp hx with h | h
            · exact List.mem_append.mpr (Or.inl (hpar x (hmemat x h) p hp))
            · rcases List.mem_append.mp h with h' | h'
              · exact List.mem_append.mpr (Or.inl (hpar x (hmemq' x h') p hp))
              · obtain ⟨hat, h1⟩ := henqprop x h'
                exact hparents x hat h1 p hp
          · intro x hx p hp
            rcases List.mem_append.mp hx with h | h
            · have hpacc := hpar x (List.mem_append.mpr (Or.inl h)) p hp
              rw [posIn_append_of_mem [t] hpacc, posIn_append_of_mem [t] h]
              exact hord x h p hp
            · have hxt : x = t := List.mem_singleton.mp h
              have hpt : t ∈ out p := hxt ▸ hp
              have hpacc := hpar t htmem p hpt
              rw [hxt, posIn_append_singleton htacc, posIn_append_of_mem [t] hpacc]
              exact posIn_lt_length hpacc

end SynthData

namespace SynthData

/-! ## Resolver soundness -/

theorem edges_child_mem {s : Schema} {c p : String}
    (h : (c, p) ∈ s.dependency_edges) : c ∈ s.tableNames := by
  unfold Schema.dependency_edges at h
  rcases List.mem_flatMap.mp h with ⟨t, ht, hcol⟩
  rcases List.mem_filterMap.mp hcol with ⟨col, _, hsome⟩
  cases hfk : col.foreign_key with
  | none => rw [hfk] at hsome; cases hsome
  | some fk =>
      rw [hfk] at hsome
      have : t.name = c := congrArg Prod.fst (Option.some.inj hsome)
      exact this ▸ List.mem_map_of_mem (·.name) ht

theorem valid_nodup {s : Schema} (h : validSchema s = true) :
    s.tableNames.Nodup := by
  unfold validSchema at h
  simp only [Bool.and_eq_true, decide_eq_true_eq] at h
  exact h.1.1.2

theorem valid_edge_parent {s : Schema} (h : validSchema s = true) :
    ∀ c p, (c, p) ∈ s.dependency_edges → p ∈ s.tableNames := by
  intro c p hcp
  unfold Schema.dependency_edges at hcp
  rcases List.mem_flatMap.mp hcp with ⟨t, ht, hcol⟩
  rcases List.mem_filterMap.mp hcol with ⟨col, hcolmem, hsome⟩
  cases hfk : col.foreign_key with
  | none => rw [hfk] at hsome; cases hsome
  | some fk =>
      rw [hfk] at hsome
      have hp : fk.ref_table = p := congrArg Prod.snd (Option.some.inj hsome)
      unfold validSchema at h
      simp only [Bool.and_eq_true, List.all_eq_true] at h
      have hfkres := h.2 t ht col hcolmem
      rw [hfk] at hfkres
      simp only [List.any_eq_true, Bool.and_eq_true, decide_eq_true_eq] at hfkres
      rcases hfkres with ⟨rt, hrt, hname, _⟩
      rw [← hp, ← hname]
      exact List.mem_map_of_mem (·.name) hrt

theorem toposort_ok_sound (s : Schema) (order : List String)
    (htnd : s.tableNames.Nodup) (h : toposort_tables s = .ok order) :
    order.Nodup ∧ order.Perm s.tableNames ∧
    (∀ x, (x, x) ∉ s.dependency_edges) ∧
    (∀ c p, (c, p) ∈ s.dependency_edges → p ∈ s.tableNames →
      p ∈ order ∧ c ∈ order ∧ posIn order p < posIn order c) := by
  unfold toposort_tables toposortWith at h
  cases haddE : addEdgesOf s with
  | error e =>
      rw [haddE] at h
      exact Except.noConfusion h
  | ok pr =>
      obtain ⟨ind, out⟩ := pr
      rw [haddE] at h
      simp only at h
      have haddE' : addEdges s.tableNames s.dependency_edges
          (fun _ => 0) (fun _ => []) = .ok (ind, out) := haddE
      have hinv0 : GraphInv s.tableNames (fun _ => 0) (fun _ => []) := by
        refine ⟨by simp, ?_, by simp⟩
        intro p c hc
        cases hc
      have hinv := addEdges_ok_inv htnd _ _ _ _ haddE' hinv0
      obtain ⟨hod0, hend0, hcnt0⟩ := hinv
      have hod : ∀ t, (out t).Nodup := hod0
      have hend : ∀ p c, c ∈ out p → c ∈ s.tableNames ∧ p ∈ s.tableNames ∧ c ≠ p := hend0
      have hcnt : ∀ c,
          ((s.tableNames.filter (fun p => decide (c ∈ out p))).length : Int) ≤ ind c := hcnt0
      have hq0nd : (([] : List String)
          ++ s.tableNames.filter (fun t => decide (ind t = 0))).Nodup := by
        simpa using List.Nodup.filter _ htnd
      have hq0mem : ∀ x ∈ ([] : List String)
          ++ s.tableNames.filter (fun t => decide (ind t = 0)), x ∈ s.tableNames := by
        intro x hx
        simp only [List.nil_append] at hx
        exact (List.mem_filter.mp hx).1
      have hq0par : ∀ x ∈ ([] : List String)
          ++ s.tableNames.filter (fun t => decide (ind t = 0)),
          ∀ p, x ∈ out p → p ∈ ([] : List String) := by
        intro x hx p hp
        simp only [List.nil_append] at hx
        have hx0 : ind x = 0 := by
          have := (List.mem_filter.mp hx).2
          simpa using this
        have hptab : p ∈ s.tableNames := (hend p x hp).2.1
        have hmemf : p ∈ s.tableNames.filter (fun r => decide (x ∈ out r)) :=
          List.mem_filter.mpr ⟨hptab, by simpa using hp⟩
        have hpos : 0 < (s.tableNames.filter (fun r => decide (x ∈ out r))).length :=
          List.length_pos.mpr (fun he => by rw [he] at hmemf; cases hmemf)
        have := hcnt x
        rw [hx0] at this
        omega
      have hK := kahnLoop_sound htnd hod hend hcnt (topoFuel s) ind
        (s.tableNames.filter (fun t => decide (ind t = 0))) []
        (by intro c; simp) hq0nd hq0mem hq0par (by intro x hx; cases hx)
      obtain ⟨hndr, hmemr, hparr⟩ := hK
      by_cases hlen : (kahnLoop (fun _ l => l) out (topoFuel s) ind
          (s.tableNames.filter (fun t => decide (ind t = 0))) []).length
          = s.tableNames.length
      · rw [if_pos hlen] at h
        have horder := Except.ok.inj h
        rw [horder] at hndr hmemr hparr hlen
        have hsub : List.Subperm order s.tableNames :=
          List.Nodup.subperm hndr (fun x hx => hmemr x hx)
        have hperm : order.Perm s.tableNames :=
          hsub.perm_of_length_le (le_of_eq hlen.symm)
        refine ⟨hndr, hperm, addEdges_ok_noself _ _ _ _ haddE', ?_⟩
        intro c p hcp hptab
        have hctab : c ∈ s.tableNames := edges_child_mem hcp
        have hcout : c ∈ out p :=
          addEdges_ok_edge_mem htnd _ _ _ _ haddE' hinv0 (c, p) hcp hctab hptab
        have hcord : c ∈ order := hperm.mem_iff.mpr hctab
        obtain ⟨hpord, hlt⟩ := hparr c hcord p hcout
        exact ⟨hpord, hcord, hlt⟩
      · rw [if_neg hlen] at h
        exact Except.noConfusion h

end SynthData

namespace SynthData

/-! ## Claim theorems: Dependency Resolver -/

/-- C4: for every valid schema on which the Resolver succeeds, its output is
a permutation of all table names and a valid topological order: for every
foreign-key edge `(child, parent)`, the parent's index in the output is
strictly less than the child's index. -/
theorem resolver_order_perm_and_topological (s : Schema) (order : List String)
    (hv : validSchema s = true) (ht : toposort_tables s = .ok order) :
    order.Perm s.tableNames ∧
    ∀ c p, (c, p) ∈ s.dependency_edges → posIn order p < posIn order c := by
  obtain ⟨_, hperm, _, hedge⟩ := toposort_ok_sound s order (valid_nodup hv) ht
  refine ⟨hperm, ?_⟩
  intro c p hcp
  exact (hedge c p hcp (valid_edge_parent hv c p hcp)).2.2

theorem resolver_order_perm_and_topological_witness :
    (["users", "orders"].Perm usersOrders.tableNames) ∧
    posIn ["users", "orders"] "users" < posIn ["users", "orders"] "orders" := by
  have h := resolver_order_perm_and_topological usersOrders ["users", "orders"]
    (by decide) rfl
  exact ⟨h.1, h.2 "orders" "users" (by decide)⟩

/-- C5: when the Kahn loop orders fewer tables than the schema declares, the
resolver raises the cycle error naming exactly the unordered tables (in
declaration order); the concrete cycle A→B→C→A yields exactly {A, B, C}; and
a schema with a self-referential foreign key always errors, never returning
an order. -/
theorem resolver_cycle_error_members :
    (∀ (s : Schema) (ordered : List String),
        kahnResult (fun _ l => l) s = some ordered →
        ordered.length ≠ s.tableNames.length →
        toposort_tables s = .error (.cyclic
          (s.tableNames.filter (fun t => ¬ t ∈ ordered)))) ∧
    toposort_tables cycSchema = .error (.cyclic ["A", "B", "C"]) ∧
    (∀ (s : Schema) (t : Table) (c : Column) (fk : ForeignKey),
        t ∈ s.tables → c ∈ t.columns → c.foreign_key = some fk →
        fk.ref_table = t.name → ∃ er, toposort_tables s = .error er) := by
  refine ⟨?_, rfl, ?_⟩
  · intro s ordered hk hne
    unfold kahnResult at hk
    unfold toposort_tables toposortWith
    cases haddE : addEdgesOf s with
    | error e => rw [haddE] at hk; cases hk
    | ok pr =>
        obtain ⟨ind, out⟩ := pr
        rw [haddE] at hk
        simp only at hk
        have hord := Option.some.inj hk
        simp only
        rw [hord, if_neg hne]
  · intro s t c fk ht hc hfk href
    have hself : (t.name, t.name) ∈ s.dependency_edges := by
      unfold Schema.dependency_edges
      refine List.mem_flatMap.mpr ⟨t, ht, ?_⟩
      refine List.mem_filterMap.mpr ⟨c, hc, ?_⟩
      rw [hfk]
      show some (t.name, fk.ref_table) = some (t.name, t.name)
      rw [href]
    obtain ⟨er, her⟩ := addEdges_self_err s.dependency_edges
      (fun _ => 0) (fun _ => []) ⟨t.name, hself⟩
    refine ⟨er, ?_⟩
    unfold toposort_tables toposortWith addEdgesOf
    rw [her]

theorem resolver_cycle_error_members_witness :
    toposort_tables cycSchema = .error (.cyclic
      (cycSchema.tableNames.filter (fun t => ¬ t ∈ ([] : List String)))) ∧
    (∃ er, toposort_tables selfSchema = .error er) := by
  refine ⟨?_, ?_⟩
  · exact resolver_cycle_error_members.1 cycSchema [] rfl (by decide)
  · exact resolver_cycle_error_members.2.2 selfSchema
      { name := "T", columns := [pkInt "tid", fkCol "t" "T" "tid"] }
      (fkCol "t" "T" "tid") ⟨"T", "tid", none⟩ (by decide) (by decide) rfl rfl

/-- C2 (refuted by the code): with two foreign keys from X into the same
parent Y, the edge-scanning guard (`parent not in out[parent]`, a test that
never fires) deduplicates nothing, so X's indegree receives 2 from Y while
Y's out-set holds X once; the loop decrements X only once, X never becomes
ready, and the resolver reports a cycle error naming X instead of the total
order [Y, X] the claim predicts. -/
theorem duplicate_fk_double_counts_indegree :
    buildIndeg dupFkSchema "X" = 2 ∧
    buildOut dupFkSchema "Y" = ["X"] ∧
    toposort_tables dupFkSchema = .error (.cyclic ["X"]) ∧
    validSchema dupFkSchema = true :=
  ⟨rfl, rfl, rfl, by decide⟩

/-- C6 (refuted by the code): the children of a popped table are visited in
the iteration order of the Python set `out[t]`; for the valid diamond schema
[P, A, B] the two admissible enumerations of P's out-set {A, B} produce two
different resolver outputs, so the resulting order depends on the hash-set
iteration order, not only on the schema. -/
theorem resolver_depends_on_set_iteration_order :
    toposortWith (fun _ l => l) diamondSchema = .ok ["P", "A", "B"] ∧
    toposortWith (fun _ l => l.reverse) diamondSchema = .ok ["P", "B", "A"] ∧
    validSchema diamondSchema = true ∧
    (["P", "A", "B"] : List String) ≠ ["P", "B", "A"] :=
  ⟨rfl, rfl, by decide, by decide⟩

end SynthData

namespace SynthData

/-! ## Association-list lemmas (Python dict semantics) -/

theorem alookup_aset {α β : Type} [DecidableEq α] (k k' : α) (v : β) :
    ∀ l : List (α × β),
      alookup k' (aset k v l) = if k = k' then some v else alookup k' l := by
  intro l
  induction l with
  | nil =>
      simp [aset, alookup]
  | cons a l ih =>
      obtain ⟨ak, av⟩ := a
      simp only [aset]
      by_cases hak : ak = k
      · subst hak
        by_cases hkk : ak = k'
        · simp [alookup, hkk]
        · have h' : ¬ k' = ak := fun e => hkk e.symm
          simp [alookup, hkk, h']
      · rw [if_neg hak]
        simp only [alookup]
        by_cases hak' : ak = k'
        · have hkk : ¬ k = k' := fun e => hak (e ▸ hak')
          simp [hak', hkk]
        · simp [hak', ih]

theorem alookup_append {α β : Type} [DecidableEq α] (k : α) :
    ∀ l l2 : List (α × β),
      alookup k (l ++ l2)
        = match alookup k l with
          | some v => some v
          | none => alookup k l2 := by
  intro l l2
  induction l with
  | nil => simp [alookup]
  | cons a l ih =>
      obtain ⟨ak, av⟩ := a
      by_cases hak : ak = k
      · simp [alookup, hak]
      · simp [alookup, hak, ih]

theorem alookup_asetdefault {α β : Type} [DecidableEq α] (k k' : α) (d : β)
    (l : List (α × β)) :
    alookup k' (asetdefault k d l)
      = if k' = k then some ((alookup k l).getD d) else alookup k' l := by
  unfold asetdefault
  cases h : alookup k l with
  | some v =>
      by_cases hk : k' = k
      · subst hk; simp [h]
      · simp [hk]
  | none =>
      rw [alookup_append]
      by_cases hk : k' = k
      · subst hk
        simp [h, alookup]
      · cases h2 : alookup k' l with
        | some w => simp [h2, hk]
        | none =>
            have hne : ¬ k = k' := fun e => hk e.symm
            simp [h2, hk, alookup, hne]

theorem alookup_aappend (k k' : String) (v : String)
    (l : List (String × List String)) :
    alookup k' (aappend k v l)
      = if k = k' then some ((alookup k l).getD [] ++ [v]) else alookup k' l := by
  unfold aappend
  exact alookup_aset k k' _ l

theorem alookup_of_mem_nodup {β : Type} {k : String} {v : β} :
    ∀ l : List (String × β), (k, v) ∈ l → (l.map Prod.fst).Nodup →
      alookup k l = some v := by
  intro l
  induction l with
  | nil => intro h; cases h
  | cons a l ih =>
      intro hmem hnd
      obtain ⟨ak, av⟩ := a
      obtain ⟨hhead, htail⟩ := List.nodup_cons.mp hnd
      rcases List.mem_cons.mp hmem with h | h
      · have h1 : ak = k := (congrArg Prod.fst h).symm
        have h2 : av = v := (congrArg Prod.snd h).symm
        simp [alookup, h1, h2]
      · have hk : ak ≠ k := by
          intro e
          refine hhead ?_
          rw [e]
          exact List.mem_map.mpr ⟨(k, v), h, rfl⟩
        simp [alookup, hk, ih h htail]

theorem poolMem_refl (P : List (String × List String)) : poolMem P P :=
  fun _ _ h => h

theorem poolMem_trans {P Q R : List (String × List String)}
    (h1 : poolMem P Q) (h2 : poolMem Q R) : poolMem P R :=
  fun p v h => h2 p v (h1 p v h)

theorem poolMem_asetdefault (k : String) (P : List (String × List String)) :
    poolMem P (asetdefault k [] P) := by
  intro p v h
  rw [alookup_asetdefault]
  by_cases hp : p = k
  · subst hp
    simpa using h
  · simpa [hp] using h

theorem poolMem_aappend (k v0 : String) (P : List (String × List String)) :
    poolMem P (aappend k v0 P) := by
  intro p v h
  rw [alookup_aappend]
  by_cases hp : k = p
  · subst hp
    simp only [if_pos rfl, Option.getD_some]
    exact List.mem_append.mpr (Or.inl h)
  · simpa [hp] using h

end SynthData


namespace SynthData

/-! ## State-preservation lemmas for the generator -/

theorem fallbackCell_state (S : Seeded) (typ : ColType) (st : GState) :
    (fallbackCell S typ st).2.pools = st.pools ∧
    (fallbackCell S typ st).2.utrack = st.utrack ∧
    (fallbackCell S typ st).2.epos = st.epos := by
  cases typ <;> simp [fallbackCell, GState.bumpR, GState.bumpF]

theorem genOnce_state (S : Seeded) (provider : Option String) (typ : ColType)
    (st : GState) :
    (genOnce S provider typ st).2.pools = st.pools ∧
    (genOnce S provider typ st).2.utrack = st.utrack ∧
    (genOnce S provider typ st).2.epos = st.epos := by
  cases provider with
  | none => simpa [genOnce] using fallbackCell_state S typ st
  | some p =>
      by_cases hc : (decide (p ≠ "") && fakerHasAttr p) = true
      · obtain ⟨hp1, hp2⟩ : p ≠ "" ∧ fakerHasAttr p = true := by simpa using hc
        simp [genOnce, hp1, hp2, GState.bumpF]
      · simp only [genOnce]
        rw [if_neg hc]
        exact fallbackCell_state S typ st

theorem uniqueRetry_ok_state (S : Seeded) (provider : Option String)
    (typ : ColType) (colName : String) :
    ∀ (fuel : Nat) (seen : List String) (st : GState) (v : String) (st' : GState)
      (seen' : List String),
      uniqueRetry S provider typ colName seen fuel st = .ok (v, st', seen') →
      st'.pools = st.pools ∧ st'.utrack = st.utrack ∧ st'.epos = st.epos := by
  intro fuel
  induction fuel with
  | zero => intro seen st v st' seen' h; cases h
  | succ k ih =>
      intro seen st v st' seen' h
      have hgs := genOnce_state S provider typ st
      rcases hg : genOnce S provider typ st with ⟨v0, st0⟩
      rw [hg] at hgs
      simp only [uniqueRetry] at h
      rw [hg] at h
      simp only at h
      split at h
      · obtain ⟨h1, h2, h3⟩ := ih _ _ _ _ _ h
        exact ⟨h1.trans hgs.1, h2.trans hgs.2.1, h3.trans hgs.2.2⟩
      · simp only [Except.ok.injEq, Prod.mk.injEq] at h
        obtain ⟨_, hst, _⟩ := h
        rw [← hst]
        exact hgs

theorem generate_scalar_ok_state (S : Seeded) (tname : String) (c : Column)
    (st : GState) (v : String) (st' : GState)
    (h : generate_scalar S tname c st = .ok (v, st')) :
    st'.pools = st.pools ∧ st'.epos = st.epos := by
  unfold generate_scalar at h
  simp only at h
  split at h
  · split at h
    · exact absurd h (by simp)
    · rename_i v0 st0 seen' hr
      simp only [Except.ok.injEq, Prod.mk.injEq] at h
      obtain ⟨_, hst⟩ := h
      obtain ⟨h1, h2, h3⟩ := uniqueRetry_ok_state S _ _ _ 1000 _ _ _ _ _ hr
      rw [← hst]
      exact ⟨h1, h3⟩
  · simp only [Except.ok.injEq] at h
    have hst : st' = (genOnce S (resolveProvider c) c.type st).2 :=
      (congrArg Prod.snd h).symm
    have hgs := genOnce_state S (resolveProvider c) c.type st
    rw [hst]
    exact ⟨hgs.1, hgs.2.2⟩

theorem pk_generator_pools (c : Column) (i : Nat) (e : Nat → String) (st : GState) :
    (pk_generator c i e st).2.pools = st.pools ∧
    (pk_generator c i e st).2.utrack = st.utrack := by
  unfold pk_generator
  split
  · exact ⟨rfl, rfl⟩
  · simp [GState.bumpE]

theorem genCell_ok_pools (S : Seeded) (e : Nat → String) (tname : String)
    (c : Column) (i : Nat) (st : GState) (v : String) (st' : GState)
    (h : genCell S e tname c i st = .ok (v, st')) :
    st'.pools = st.pools := by
  unfold genCell at h
  split at h
  · simp only [Except.ok.injEq] at h
    have hst : st' = (pk_generator c i e st).2 := (congrArg Prod.snd h).symm
    rw [hst]
    exact (pk_generator_pools c i e st).1
  · split at h
    · simp only at h
      split at h
      · exact absurd h (by simp)
      · simp only [Except.ok.injEq, Prod.mk.injEq] at h
        rw [← h.2]
        rfl
    · split at h
      · split at h
        · simp only [Except.ok.injEq, Prod.mk.injEq] at h
          rw [← h.2]
          rfl
        · exact (generate_scalar_ok_state S tname c st.bumpR v st' h).1
      · exact (generate_scalar_ok_state S tname c st v st' h).1

theorem genCells_ok_pools (S : Seeded) (e : Nat → String) (tname : String)
    (i : Nat) :
    ∀ (cols : List Column) (st : GState) (cells : List String) (st' : GState),
      genCells S e tname i cols st = .ok (cells, st') →
      st'.pools = st.pools ∧ cells.length = cols.length := by
  intro cols
  induction cols with
  | nil =>
      intro st cells st' h
      simp only [genCells, Except.ok.injEq, Prod.mk.injEq] at h
      obtain ⟨h1, h2⟩ := h
      exact ⟨by rw [← h2], by rw [← h1]; rfl⟩
  | cons c cs ih =>
      intro st cells st' h
      simp only [genCells] at h
      split at h
      · exact absurd h (by simp)
      · rename_i v0 st1 hc
        split at h
        · exact absurd h (by simp)
        · rename_i vs st2 hcs
          simp only [Except.ok.injEq, Prod.mk.injEq] at h
          obtain ⟨hcells, hst⟩ := h
          obtain ⟨hp, hl⟩ := ih st1 vs st2 hcs
          refine ⟨?_, ?_⟩
          · rw [← hst, hp, genCell_ok_pools S e tname c i st v0 st1 hc]
          · rw [← hcells]
            simp [hl]

end SynthData

namespace SynthData

/-! ## Foreign-key sampling lemmas -/

theorem genCell_fk_mem (S : Seeded) (e : Nat → String) (tname : String)
    (c : Column) (i : Nat) (st : GState) (v : String) (st' : GState)
    (fk : ForeignKey) (hpk : c.primary_key = false) (hfk : c.foreign_key = some fk)
    (h : genCell S e tname c i st = .ok (v, st')) :
    v ∈ (alookup fk.ref_table st.pools).getD [] := by
  unfold genCell at h
  rw [hpk, if_neg Bool.false_ne_true, hfk] at h
  simp only at h
  split at h
  · exact absurd h (by simp)
  · rename_i hne
    simp only [Except.ok.injEq, Prod.mk.injEq] at h
    obtain ⟨hv, _⟩ := h
    rw [← hv]
    have hne' : (alookup fk.ref_table st.pools).getD [] ≠ [] := by
      intro he
      rw [he] at hne
      exact hne rfl
    have hpos : 0 < ((alookup fk.ref_table st.pools).getD []).length :=
      List.length_pos.mpr hne'
    have hlt := Nat.mod_lt (S.rand st.rpos) hpos
    rw [List.getD_eq_getElem?_getD, List.getElem?_eq_getElem hlt]
    simp only [Option.getD_some]
    exact List.getElem_mem hlt

theorem genCells_fk_mem (S : Seeded) (e : Nat → String) (tname : String)
    (i : Nat) :
    ∀ (cols : List Column) (st : GState) (cells : List String) (st' : GState),
      genCells S e tname i cols st = .ok (cells, st') →
      ∀ j c fk, cols.get? j = some c → c.primary_key = false →
        c.foreign_key = some fk →
        ∃ cell, cells.get? j = some cell ∧
          cell ∈ (alookup fk.ref_table st.pools).getD [] := by
  intro cols
  induction cols with
  | nil =>
      intro st cells st' h j c fk hj
      cases hj
  | cons c0 cs ih =>
      intro st cells st' h j c fk hj hpk hfk
      simp only [genCells] at h
      split at h
      · exact absurd h (by simp)
      · rename_i v0 st1 hc
        split at h
        · exact absurd h (by simp)
        · rename_i vs st2 hcs
          simp only [Except.ok.injEq, Prod.mk.injEq] at h
          obtain ⟨hcells, _⟩ := h
          cases j with
          | zero =>
              have hc0 : c0 = c := Option.some.inj hj
              refine ⟨v0, ?_, ?_⟩
              · rw [← hcells]; rfl
              · exact genCell_fk_mem S e tname c0 i st v0 st1 fk
                  (hc0 ▸ hpk) (hc0 ▸ hfk) hc
          | succ j' =>
              have hj' : cs.get? j' = some c := hj
              obtain ⟨cell, hcell, hmem⟩ := ih st1 vs st2 hcs j' c fk hj' hpk hfk
              refine ⟨cell, ?_, ?_⟩
              · rw [← hcells]; exact hcell
              · rw [genCell_ok_pools S e tname c0 i st v0 st1 hc] at hmem
                exact hmem

/-! ## Row loop lemma -/

theorem rowLoop_ok (S : Seeded) (e : Nat → String) (tname : String)
    (cols : List Column) (pkName : String) :
    ∀ (n i : Nat) (st : GState) (rws : List (List String)) (st' : GState),
      rowLoop S e tname cols pkName n i st = .ok (rws, st') →
      poolMem st.pools st'.pools ∧
      (∀ p, p ≠ tname → alookup p st'.pools = alookup p st.pools) ∧
      (∀ l0, alookup tname st.pools = some l0 →
        alookup tname st'.pools
          = some (l0 ++ rws.map (fun cells => dictGet cols cells pkName))) ∧
      rws.length = n ∧
      (∀ row ∈ rws, row.length = cols.length) ∧
      (∀ row ∈ rws, ∀ j c fk, cols.get? j = some c → c.primary_key = false →
        c.foreign_key = some fk →
        ∃ cell, row.get? j = some cell ∧
          cell ∈ (alookup fk.ref_table st'.pools).getD []) := by
  intro n
  induction n with
  | zero =>
      intro i st rws st' h
      simp only [rowLoop, Except.ok.injEq, Prod.mk.injEq] at h
      obtain ⟨hrws, hst⟩ := h
      rw [← hrws, ← hst]
      refine ⟨poolMem_refl _, fun p _ => rfl, ?_, rfl, ?_, ?_⟩
      · intro l0 hl0
        simpa using hl0
      · intro row hrow; cases hrow
      · intro row hrow; cases hrow
  | succ k ih =>
      intro i st rws st' h
      simp only [rowLoop] at h
      split at h
      · exact absurd h (by simp)
      · rename_i cells st1 hgc
        split at h
        · exact absurd h (by simp)
        · rename_i rows st3 hrl
          simp only [Except.ok.injEq, Prod.mk.injEq] at h
          obtain ⟨hrws, hst⟩ := h
          obtain ⟨hp1, hlen1⟩ := genCells_ok_pools S e tname i cols st cells st1 hgc
          obtain ⟨ihMem, ihOther, ihSelf, ihLen, ihRowLen, ihFk⟩ := ih (i + 1) _ rows st3 hrl
          have hmem2 : poolMem st.pools st3.pools := by
            refine poolMem_trans ?_ ihMem
            show poolMem st.pools (aappend tname (dictGet cols cells pkName) st1.pools)
            rw [hp1]
            exact poolMem_aappend _ _ _
          refine ⟨by rw [← hst]; exact hmem2, ?_, ?_, ?_, ?_, ?_⟩
          · intro p hp
            rw [← hst]
            have h2 : alookup p (aappend tname (dictGet cols cells pkName) st1.pools)
                = alookup p st.pools := by
              rw [alookup_aappend, if_neg (fun he => hp he.symm), hp1]
            exact (ihOther p hp).trans h2
          · intro l0 hl0
            have hl1 : alookup tname (aappend tname (dictGet cols cells pkName) st1.pools)
                = some (l0 ++ [dictGet cols cells pkName]) := by
              rw [alookup_aappend, if_pos rfl, hp1, hl0]
              rfl
            have h3 := ihSelf (l0 ++ [dictGet cols cells pkName]) hl1
            rw [← hst, h3, ← hrws]
            simp [List.append_assoc]
          · rw [← hrws]
            simp [ihLen]
          · intro row hrow
            rw [← hrws] at hrow
            rcases List.mem_cons.mp hrow with h' | h'
            · rw [h']; exact hlen1
            · exact ihRowLen row h'
          · intro row hrow j c fk hj hpk hfk
            rw [← hrws] at hrow
            rcases List.mem_cons.mp hrow with h' | h'
            · obtain ⟨cell, hcell, hmemc⟩ :=
                genCells_fk_mem S e tname i cols st cells st1 hgc j c fk hj hpk hfk
              refine ⟨cell, by rw [h']; exact hcell, ?_⟩
              rw [← hst]
              exact hmem2 fk.ref_table cell hmemc
            · obtain ⟨cell, hcell, hmemc⟩ := ihFk row h' j c fk hj hpk hfk
              exact ⟨cell, hcell, by rw [← hst]; exact hmemc⟩

end SynthData

namespace SynthData

/-! ## Table-level lemmas -/

theorem processTable_ok (S : Seeded) (e : Nat → String) (rows : Nat) (s : Schema)
    (tname : String) (st : GState) (trows : List (List String)) (st' : GState)
    (h : processTable S e rows s tname st = .ok (trows, st')) :
    ∃ tbl pkCol,
      tablesByName s tname = some tbl ∧
      tbl.columns.filter (·.primary_key) = [pkCol] ∧
      poolMem st.pools st'.pools ∧
      (∀ p, p ≠ tname → alookup p st'.pools = alookup p st.pools) ∧
      alookup tname st'.pools = some ((alookup tname st.pools).getD []
        ++ trows.map (fun cells => dictGet tbl.columns cells pkCol.name)) ∧
      trows.length = rows ∧
      (∀ row ∈ trows, row.length = tbl.columns.length) ∧
      (∀ row ∈ trows, ∀ j c fk, tbl.columns.get? j = some c → c.primary_key = false →
        c.foreign_key = some fk →
        ∃ cell, row.get? j = some cell ∧
          cell ∈ (alookup fk.ref_table st'.pools).getD []) := by
  unfold processTable at h
  split at h
  · exact absurd h (by simp)
  · rename_i tbl htbl
    split at h
    · rename_i pkCol hpk
      obtain ⟨rlMem, rlOther, rlSelf, rlLen, rlRowLen, rlFk⟩ :=
        rowLoop_ok S e tname tbl.columns pkCol.name rows 0 _ trows st' h
      refine ⟨tbl, pkCol, htbl, hpk, ?_, ?_, ?_, rlLen, rlRowLen, rlFk⟩
      · refine poolMem_trans ?_ rlMem
        exact poolMem_asetdefault tname st.pools
      · intro p hp
        have h2 : alookup p (asetdefault tname [] st.pools) = alookup p st.pools := by
          rw [alookup_asetdefault, if_neg hp]
        exact (rlOther p hp).trans h2
      · have hl1 : alookup tname (asetdefault tname [] st.pools)
            = some ((alookup tname st.pools).getD []) := by
          rw [alookup_asetdefault, if_pos rfl]
        exact rlSelf ((alookup tname st.pools).getD []) hl1
    · exact absurd h (by simp)

theorem processTables_ok (S : Seeded) (e : Nat → String) (rows : Nat) (s : Schema) :
    ∀ (ts : List String) (st : GState)
      (outs : List (String × List (List String))) (stF : GState),
      processTables S e rows s ts st = .ok (outs, stF) →
      (outs.map Prod.fst = ts) ∧
      poolMem st.pools stF.pools ∧
      (∀ p, p ∉ ts → alookup p stF.pools = alookup p st.pools) ∧
      (ts.Nodup → (∀ t ∈ ts, alookup t st.pools = none) →
        ∀ t trows, (t, trows) ∈ outs →
          ∃ tbl pkCol, tablesByName s t = some tbl ∧
            tbl.columns.filter (·.primary_key) = [pkCol] ∧
            alookup t stF.pools
              = some (trows.map (fun cells => dictGet tbl.columns cells pkCol.name)) ∧
            trows.length = rows ∧
            (∀ row ∈ trows, row.length = tbl.columns.length) ∧
            (∀ row ∈ trows, ∀ j c fk, tbl.columns.get? j = some c →
              c.primary_key = false → c.foreign_key = some fk →
              ∃ cell, row.get? j = some cell ∧
                cell ∈ (alookup fk.ref_table stF.pools).getD [])) := by
  intro ts
  induction ts with
  | nil =>
      intro st outs stF h
      simp only [processTables, Except.ok.injEq, Prod.mk.injEq] at h
      obtain ⟨houts, hst⟩ := h
      rw [← houts, ← hst]
      exact ⟨rfl, poolMem_refl _, fun p _ => rfl,
        fun _ _ t trows hmem => absurd hmem (List.not_mem_nil _)⟩
  | cons t ts' ih =>
      intro st outs stF h
      simp only [processTables] at h
      split at h
      · exact absurd h (by simp)
      · rename_i trows st1 hpt
        split at h
        · exact absurd h (by simp)
        · rename_i rest stF' hpts
          simp only [Except.ok.injEq, Prod.mk.injEq] at h
          obtain ⟨houts, hstF⟩ := h
          obtain ⟨tbl, pkCol, htbl, hpk, ptMem, ptOther, ptSelf, ptLen,
            ptRowLen, ptFk⟩ := processTable_ok S e rows s t st trows st1 hpt
          obtain ⟨ihFst, ihMem, ihOther, ihRest⟩ := ih st1 rest stF' hpts
          rw [← hstF, ← houts]
          refine ⟨?_, poolMem_trans ptMem ihMem, ?_, ?_⟩
          · simp [ihFst]
          · intro p hp
            have hp1 : p ≠ t := fun he => hp (he ▸ List.mem_cons_self t ts')
            have hp2 : p ∉ ts' := fun he => hp (List.mem_cons_of_mem t he)
            exact (ihOther p hp2).trans (ptOther p hp1)
          · intro hnodup hnone u urows humem
            obtain ⟨htns, hnodup'⟩ := List.nodup_cons.mp hnodup
            rcases List.mem_cons.mp humem with he | he
            · have hu : u = t := congrArg Prod.fst he
              have hur : urows = trows := congrArg Prod.snd he
              subst hu
              subst hur
              refine ⟨tbl, pkCol, htbl, hpk, ?_, ptLen, ptRowLen, ?_⟩
              · have h1 := ihOther u htns
                have h2 := ptSelf
                rw [hnone u (List.mem_cons_self u ts')] at h2
                rw [h1, h2]
                rfl
              · intro row hrow j c fk hj hcpk hcfk
                obtain ⟨cell, hcell, hmemc⟩ := ptFk row hrow j c fk hj hcpk hcfk
                exact ⟨cell, hcell, ihMem fk.ref_table cell hmemc⟩
            · have hnone' : ∀ u' ∈ ts', alookup u' st1.pools = none := by
                intro u' hu'
                have hne : u' ≠ t := fun heq => htns (heq ▸ hu')
                rw [ptOther u' hne]
                exact hnone u' (List.mem_cons_of_mem t hu')
              exact ihRest hnodup' hnone' u urows he

end SynthData

namespace SynthData

/-! ## Validity and lookup helpers for the generator claims -/

theorem tablesByName_mem {s : Schema} {n : String} {tbl : Table}
    (h : tablesByName s n = some tbl) : tbl ∈ s.tables ∧ tbl.name = n := by
  unfold tablesByName at h
  constructor
  · exact List.mem_reverse.mp (List.mem_of_find?_eq_some h)
  · have := List.find?_some h
    simpa using this

theorem valid_col_fk_not_pk {s : Schema} {tbl : Table} {c : Column} {fk : ForeignKey}
    (hv : validSchema s = true) (htbl : tbl ∈ s.tables) (hc : c ∈ tbl.columns)
    (hfk : c.foreign_key = some fk) : c.primary_key = false := by
  unfold validSchema at hv
  simp only [Bool.and_eq_true, List.all_eq_true] at hv
  have hvt := hv.1.2 tbl htbl
  unfold validTable at hvt
  simp only [Bool.and_eq_true, List.all_eq_true] at hvt
  have hvc := hvt.2 c hc
  unfold validColumn at hvc
  simp only [Bool.and_eq_true] at hvc
  cases hpkc : c.primary_key with
  | false => rfl
  | true =>
      exfalso
      have h1 := hvc.1
      rw [hpkc, hfk] at h1
      simp at h1

/-! ## Claim theorem: referential integrity (C1) -/

/-- C1: for every schema that passes validation, every `rows_per_table ≥ 1`
and every run of the emitted generation procedure that completes, each value
written into a foreign-key column of a child table's rows is an element of
the referenced parent table's generated primary-key column — for any
behaviour of the seeded random streams and of the OS entropy stream. -/
theorem generated_fk_values_reference_parent_pks
    (s : Schema) (order : List String) (rows : Nat) (S : Seeded) (e : Nat → String)
    (outs : List (String × List (List String)))
    (hv : validSchema s = true) (hr : 1 ≤ rows)
    (ht : toposort_tables s = .ok order)
    (hg : generate s order rows S e = .ok outs) :
    ∀ tname trows, (tname, trows) ∈ outs → ∀ row ∈ trows,
      ∀ j c fk cell, colOf s tname j = some c → c.foreign_key = some fk →
        row.get? j = some cell → cell ∈ pkCells s outs fk.ref_table := by
  unfold generate at hg
  split at hg
  · exact absurd hg (by simp)
  · rename_i outs0 stF hpts
    have houtseq : outs0 = outs := Except.ok.inj hg
    subst houtseq
    have htnd := valid_nodup hv
    obtain ⟨hond, hoperm, _, _⟩ := toposort_ok_sound s order htnd ht
    obtain ⟨hfst, hmemP, hother, hrest⟩ :=
      processTables_ok S e rows s order {} outs0 stF hpts
    have hinit : ∀ t ∈ order, alookup t ({} : GState).pools = none := fun t _ => rfl
    have hrest' := hrest hond hinit
    intro tname trows htt row hrow j c fk cell hcol hcfk hcell
    unfold colOf at hcol
    cases htbn : tablesByName s tname with
    | none => rw [htbn] at hcol; cases hcol
    | some tbl0 =>
        rw [htbn] at hcol
        simp only at hcol
        obtain ⟨tbl, pkCol, htbl, hpkfilter, hpool, hlen, hrowlen, hfkc⟩ :=
          hrest' tname trows htt
        have htbleq : tbl = tbl0 := Option.some.inj ((htbl.symm).trans htbn)
        subst htbleq
        have hcpk : c.primary_key = false :=
          valid_col_fk_not_pk hv (tablesByName_mem htbn).1 (List.get?_mem hcol) hcfk
        obtain ⟨cell', hcell', hmemc⟩ := hfkc row hrow j c fk hcol hcpk hcfk
        have hcelleq : cell' = cell := Option.some.inj ((hcell'.symm).trans hcell)
        subst hcelleq
        cases hpar : alookup fk.ref_table stF.pools with
        | none =>
            rw [hpar] at hmemc
            cases hmemc
        | some plist =>
            have hpin : fk.ref_table ∈ order := by
              by_contra hno
              have hch := hother fk.ref_table hno
              rw [hpar] at hch
              cases hch
            have hpmap : fk.ref_table ∈ outs0.map Prod.fst := by
              rw [hfst]; exact hpin
            obtain ⟨pr, hprmem, hprfst⟩ := List.mem_map.mp hpmap
            obtain ⟨pn, prows⟩ := pr
            simp only at hprfst
            subst hprfst
            obtain ⟨ptbl, ppk, hptbl, hppkf, hppool, _, _, _⟩ :=
              hrest' fk.ref_table prows hprmem
            have houts_nodup : (outs0.map Prod.fst).Nodup := by
              rw [hfst]; exact hond
            have halo : alookup fk.ref_table outs0 = some prows :=
              alookup_of_mem_nodup outs0 hprmem houts_nodup
            have hplist : plist
                = prows.map (fun cells => dictGet ptbl.columns cells ppk.name) :=
              Option.some.inj ((hpar.symm).trans hppool)
            unfold pkCells
            rw [hptbl, halo]
            simp only
            have hpkname : pkColName ptbl = some ppk.name := by
              unfold pkColName
              rw [hppkf]
            rw [hpkname]
            simp only
            rw [hpar] at hmemc
            simp only [Option.getD_some] at hmemc
            rw [hplist] at hmemc
            exact hmemc

theorem generated_fk_values_reference_parent_pks_witness :
    ("1" : String) ∈ pkCells usersOrders
      [("users", [["1", "email0"], ["2", "email1"]]), ("orders", [["1", "1"], ["2", "2"]])]
      "users" :=
  generated_fk_values_reference_parent_pks usersOrders ["users", "orders"] 2 S0 e0
    [("users", [["1", "email0"], ["2", "email1"]]), ("orders", [["1", "1"], ["2", "2"]])]
    (by decide) (by decide) rfl rfl
    "orders" [["1", "1"], ["2", "2"]] (by decide) ["1", "1"] (by decide)
    1 (fkCol "user_id" "users" "user_id") ⟨"users", "user_id", none⟩ "1" rfl rfl rfl

end SynthData

namespace SynthData

/-! ## Missing-parent-rows unreachability (C8) -/

theorem mem_dependency_edges_of {s : Schema} {tbl : Table} {c : Column}
    {fk : ForeignKey} (htbl : tbl ∈ s.tables) (hc : c ∈ tbl.columns)
    (hfk : c.foreign_key = some fk) :
    (tbl.name, fk.ref_table) ∈ s.dependency_edges := by
  unfold Schema.dependency_edges
  refine List.mem_flatMap.mpr ⟨tbl, htbl, ?_⟩
  refine List.mem_filterMap.mpr ⟨c, hc, ?_⟩
  rw [hfk]

theorem isMissingParentErr_error {α : Type} {er : GenErr}
    (h : ∀ a b c, er ≠ .missingParent a b c) :
    isMissingParentErr (Except.error er : Except GenErr α) = false := by
  cases er with
  | missingParent a b c => exact absurd rfl (h a b c)
  | unsupportedKey t => rfl
  | unknownTable t => rfl
  | uniqFail t => rfl

theorem not_missing_of_error {α : Type} {er : GenErr}
    (h : isMissingParentErr (Except.error er : Except GenErr α) = false) :
    ∀ a b c, er ≠ .missingParent a b c := by
  intro a b c he
  subst he
  exact Bool.noConfusion h

theorem uniqueRetry_err (S : Seeded) (provider : Option String) (typ : ColType)
    (colName : String) :
    ∀ (fuel : Nat) (seen : List String) (st : GState) (er : GenErr),
      uniqueRetry S provider typ colName seen fuel st = .error er →
      er = .uniqFail colName := by
  intro fuel
  induction fuel with
  | zero =>
      intro seen st er h
      simp only [uniqueRetry, Except.error.injEq] at h
      exact h.symm
  | succ k ih =>
      intro seen st er h
      simp only [uniqueRetry] at h
      split at h
      · exact ih _ _ _ h
      · exact absurd h (by simp)

theorem generate_scalar_not_missing (S : Seeded) (tname : String) (c : Column)
    (st : GState) :
    isMissingParentErr (generate_scalar S tname c st) = false := by
  unfold generate_scalar
  simp only
  split
  · split
    · rename_i er heq
      rw [uniqueRetry_err S _ _ _ 1000 _ _ er heq]
      rfl
    · rfl
  · rfl

theorem genCell_not_missing (S : Seeded) (e : Nat → String) (tname : String)
    (c : Column) (i : Nat) (st : GState)
    (hfk : ∀ fk, c.foreign_key = some fk →
      (alookup fk.ref_table st.pools).getD [] ≠ []) :
    isMissingParentErr (genCell S e tname c i st) = false := by
  unfold genCell
  split
  · rfl
  · split
    · rename_i fk hfkeq
      simp only
      split
      · rename_i hemp
        exact absurd (List.isEmpty_iff.mp hemp) (hfk fk hfkeq)
      · rfl
    · split
      · split
        · rfl
        · exact generate_scalar_not_missing S tname c st.bumpR
      · exact generate_scalar_not_missing S tname c st

theorem genCells_not_missing (S : Seeded) (e : Nat → String) (tname : String)
    (i : Nat) :
    ∀ (cols : List Column) (st : GState),
      (∀ c ∈ cols, ∀ fk, c.foreign_key = some fk →
        (alookup fk.ref_table st.pools).getD [] ≠ []) →
      isMissingParentErr (genCells S e tname i cols st) = false := by
  intro cols
  induction cols with
  | nil => intro st _; rfl
  | cons c cs ih =>
      intro st hyp
      simp only [genCells]
      cases hc : genCell S e tname c i st with
      | error er =>
          have hnm := genCell_not_missing S e tname c i st
            (hyp c (List.mem_cons_self c cs))
          rw [hc] at hnm
          exact isMissingParentErr_error (not_missing_of_error hnm)
      | ok pr =>
          obtain ⟨v, st1⟩ := pr
          simp only
          cases hcs : genCells S e tname i cs st1 with
          | error er2 =>
              have hp1 := genCell_ok_pools S e tname c i st v st1 hc
              have hnm := ih st1 (by
                intro c' hc' fk hfk'
                rw [hp1]
                exact hyp c' (List.mem_cons_of_mem c hc') fk hfk')
              rw [hcs] at hnm
              exact isMissingParentErr_error (not_missing_of_error hnm)
          | ok pr2 =>
              obtain ⟨vs, st2⟩ := pr2
              rfl

theorem rowLoop_not_missing (S : Seeded) (e : Nat → String) (tname : String)
    (cols : List Column) (pkName : String) :
    ∀ (n i : Nat) (st : GState),
      (∀ c ∈ cols, ∀ fk, c.foreign_key = some fk →
        (alookup fk.ref_table st.pools).getD [] ≠ []) →
      isMissingParentErr (rowLoop S e tname cols pkName n i st) = false := by
  intro n
  induction n with
  | zero => intro i st _; rfl
  | succ k ih =>
      intro i st hyp
      simp only [rowLoop]
      cases hgc : genCells S e tname i cols st with
      | error er =>
          have hnm := genCells_not_missing S e tname i cols st hyp
          rw [hgc] at hnm
          exact isMissingParentErr_error (not_missing_of_error hnm)
      | ok pr =>
          obtain ⟨cells, st1⟩ := pr
          simp only
          have hp1 := (genCells_ok_pools S e tname i cols st cells st1 hgc).1
          have hyp2 : ∀ c ∈ cols, ∀ fk, c.foreign_key = some fk →
              (alookup fk.ref_table
                (aappend tname (dictGet cols cells pkName) st1.pools)).getD [] ≠ [] := by
            intro c' hc' fk hfk'
            have hold := hyp c' hc' fk hfk'
            obtain ⟨v, hv⟩ := List.exists_mem_of_ne_nil _ hold
            have hv1 : v ∈ (alookup fk.ref_table st1.pools).getD [] := by
              rw [hp1]; exact hv
            have hv2 := poolMem_aappend tname (dictGet cols cells pkName) st1.pools
              fk.ref_table v hv1
            exact List.ne_nil_of_mem hv2
          cases hrl : rowLoop S e tname cols pkName k (i + 1)
              { st1 with pools := aappend tname (dictGet cols cells pkName) st1.pools } with
          | error er2 =>
              have hnm := ih (i + 1)
                { st1 with pools := aappend tname (dictGet cols cells pkName) st1.pools } hyp2
              rw [hrl] at hnm
              exact isMissingParentErr_error (not_missing_of_error hnm)
          | ok pr2 =>
              obtain ⟨rows, st3⟩ := pr2
              rfl

theorem processTable_not_missing (S : Seeded) (e : Nat → String) (rows : Nat)
    (s : Schema) (tname : String) (st : GState)
    (hfk : ∀ tbl, tablesByName s tname = some tbl →
      ∀ c ∈ tbl.columns, ∀ fk, c.foreign_key = some fk →
        (alookup fk.ref_table st.pools).getD [] ≠ []) :
    isMissingParentErr (processTable S e rows s tname st) = false := by
  unfold processTable
  split
  · rfl
  · rename_i tbl htbn
    split
    · rename_i pkCol hpkf
      refine rowLoop_not_missing S e tname tbl.columns pkCol.name rows 0 _ ?_
      intro c hc fk hfk'
      have hold := hfk tbl htbn c hc fk hfk'
      have : (alookup fk.ref_table (asetdefault tname [] st.pools)).getD []
          = (alookup fk.ref_table st.pools).getD [] := by
        rw [alookup_asetdefault]
        by_cases hp : fk.ref_table = tname
        · rw [if_pos hp, hp]
          cases alookup tname st.pools <;> rfl
        · rw [if_neg hp]
      rw [this]
      exact hold
    · rfl

theorem processTables_not_missing (S : Seeded) (e : Nat → String) (rows : Nat)
    (s : Schema) (order : List String)
    (hedge : ∀ c p, (c, p) ∈ s.dependency_edges →
      p ∈ order ∧ posIn order p < posIn order c)
    (hond : order.Nodup) (hr : 1 ≤ rows) :
    ∀ (done ts : List String), done ++ ts = order →
      ∀ st : GState, (∀ t ∈ done, (alookup t st.pools).getD [] ≠ []) →
        isMissingParentErr (processTables S e rows s ts st) = false := by
  intro done ts
  induction ts generalizing done with
  | nil => intro _ st _; rfl
  | cons t ts' ih =>
      intro hsplit st hdone
      have htdone : t ∉ done := by
        intro hmem
        rw [← hsplit] at hond
        obtain ⟨_, _, hdisj⟩ := List.nodup_append.mp hond
        exact hdisj hmem (List.mem_cons_self t ts')
      have hparents : ∀ tbl, tablesByName s t = some tbl →
          ∀ c ∈ tbl.columns, ∀ fk, c.foreign_key = some fk →
            (alookup fk.ref_table st.pools).getD [] ≠ [] := by
        intro tbl htbn c hc fk hfk'
        obtain ⟨htblmem, htblname⟩ := tablesByName_mem htbn
        have hedgemem : (t, fk.ref_table) ∈ s.dependency_edges := by
          have := mem_dependency_edges_of htblmem hc hfk'
          rw [htblname] at this
          exact this
        obtain ⟨hpin, hplt⟩ := hedge t fk.ref_table hedgemem
        have hposT : posIn order t = done.length := by
          rw [← hsplit]
          have h1 : posIn (done ++ t :: ts') t = done.length + posIn (t :: ts') t :=
            posIn_append_of_not_mem _ htdone
          rw [h1]
          simp [posIn]
        have hpdone : fk.ref_table ∈ done := by
          by_contra hno
          have h2 : posIn order fk.ref_table
              = done.length + posIn (t :: ts') fk.ref_table := by
            rw [← hsplit]
            exact posIn_append_of_not_mem _ hno
          rw [hposT, h2] at hplt
          omega
        exact hdone fk.ref_table hpdone
      simp only [processTables]
      cases hpt : processTable S e rows s t st with
      | error er =>
          have hnm := processTable_not_missing S e rows s t st hparents
          rw [hpt] at hnm
          exact isMissingParentErr_error (not_missing_of_error hnm)
      | ok pr =>
          obtain ⟨trows, st1⟩ := pr
          simp only
          obtain ⟨tbl, pkCol, htbl, hpkf, ptMem, ptOther, ptSelf, ptLen, _, _⟩ :=
            processTable_ok S e rows s t st trows st1 hpt
          have hsplit' : (done ++ [t]) ++ ts' = order := by
            rw [← hsplit]
            simp
          have hdone' : ∀ u ∈ done ++ [t], (alookup u st1.pools).getD [] ≠ [] := by
            intro u hu
            rcases List.mem_append.mp hu with h' | h'
            · have hne : u ≠ t := fun heq => htdone (heq ▸ h')
              rw [ptOther u hne]
              exact hdone u h'
            · have hut : u = t := List.mem_singleton.mp h'
              subst hut
              rw [ptSelf]
              simp only [Option.getD_some]
              intro hcontra
              have : trows.map (fun cells => dictGet tbl.columns cells pkCol.name) = [] :=
                (List.append_eq_nil.mp hcontra).2
              have hlen0 : trows.length = 0 := by
                have := congrArg List.length this
                simpa using this
              rw [ptLen] at hlen0
              omega
          cases hpts : processTables S e rows s ts' st1 with
          | error er2 =>
              have hnm := ih (done ++ [t]) hsplit' st1 hdone'
              rw [hpts] at hnm
              exact isMissingParentErr_error (not_missing_of_error hnm)
          | ok pr2 =>
              obtain ⟨rest, stF⟩ := pr2
              rfl

/-! ## Claim theorem C8 -/

/-- C8: for every valid schema on which the Resolver succeeds and every
`rows_per_table ≥ 1`, the missing-parent-rows error branch of the emitted
`generate` is unreachable: whatever the random streams do, the run never
ends in that error, because each foreign key's parent precedes its child in
the table order and its pool already holds `rows_per_table ≥ 1` values. -/
theorem missing_parent_rows_error_unreachable
    (s : Schema) (order : List String) (rows : Nat) (S : Seeded) (e : Nat → String)
    (hv : validSchema s = true) (hr : 1 ≤ rows)
    (ht : toposort_tables s = .ok order) :
    isMissingParentErr (generate s order rows S e) = false := by
  obtain ⟨hond, hoperm, hnoself, hedge⟩ := toposort_ok_sound s order (valid_nodup hv) ht
  have hedge' : ∀ c p, (c, p) ∈ s.dependency_edges →
      p ∈ order ∧ posIn order p < posIn order c := by
    intro c p h
    have z := hedge c p h (valid_edge_parent hv c p h)
    exact ⟨z.1, z.2.2⟩
  have hnm := processTables_not_missing S e rows s order hedge' hond hr [] order rfl
    ({} : GState) (by intro t htm; cases htm)
  unfold generate
  cases hpts : processTables S e rows s order ({} : GState) with
  | error er =>
      rw [hpts] at hnm
      exact isMissingParentErr_error (not_missing_of_error hnm)
  | ok pr =>
      obtain ⟨outs, stF⟩ := pr
      rfl

theorem missing_parent_rows_error_unreachable_witness :
    isMissingParentErr (generate usersOrders ["users", "orders"] 2 S0 e0) = false :=
  missing_parent_rows_error_unreachable usersOrders ["users", "orders"] 2 S0 e0
    (by decide) (by decide) rfl

end SynthData

namespace SynthData

/-! ## Entropy independence (C3) -/

theorem genCell_e_indep (S : Seeded) (e1 e2 : Nat → String) (tname : String)
    (c : Column) (i : Nat) (st : GState)
    (hpk : c.primary_key = true → c.type = ColType.int) :
    genCell S e1 tname c i st = genCell S e2 tname c i st := by
  unfold genCell
  by_cases hp : c.primary_key = true
  · rw [if_pos hp, if_pos hp]
    unfold pk_generator
    rw [if_pos (hpk hp), if_pos (hpk hp)]
  · rw [if_neg hp, if_neg hp]

theorem genCells_e_indep (S : Seeded) (e1 e2 : Nat → String) (tname : String)
    (i : Nat) :
    ∀ (cols : List Column) (st : GState),
      (∀ c ∈ cols, c.primary_key = true → c.type = ColType.int) →
      genCells S e1 tname i cols st = genCells S e2 tname i cols st := by
  intro cols
  induction cols with
  | nil => intro st _; rfl
  | cons c cs ih =>
      intro st hcols
      simp only [genCells]
      rw [genCell_e_indep S e1 e2 tname c i st (hcols c (List.mem_cons_self c cs))]
      cases hc : genCell S e2 tname c i st with
      | error er => rfl
      | ok pr =>
          obtain ⟨v, st1⟩ := pr
          simp only
          rw [ih st1 (fun c' hc' => hcols c' (List.mem_cons_of_mem c hc'))]

theorem rowLoop_e_indep (S : Seeded) (e1 e2 : Nat → String) (tname : String)
    (cols : List Column) (pkName : String)
    (hcols : ∀ c ∈ cols, c.primary_key = true → c.type = ColType.int) :
    ∀ (n i : Nat) (st : GState),
      rowLoop S e1 tname cols pkName n i st = rowLoop S e2 tname cols pkName n i st := by
  intro n
  induction n with
  | zero => intro i st; rfl
  | succ k ih =>
      intro i st
      simp only [rowLoop]
      rw [genCells_e_indep S e1 e2 tname i cols st hcols]
      cases hgc : genCells S e2 tname i cols st with
      | error er => rfl
      | ok pr =>
          obtain ⟨cells, st1⟩ := pr
          simp only
          rw [ih (i + 1) _]

theorem processTable_e_indep (S : Seeded) (e1 e2 : Nat → String) (rows : Nat)
    (s : Schema) (tname : String) (st : GState)
    (hint : ∀ tbl ∈ s.tables, ∀ c ∈ tbl.columns,
      c.primary_key = true → c.type = ColType.int) :
    processTable S e1 rows s tname st = processTable S e2 rows s tname st := by
  unfold processTable
  cases htbn : tablesByName s tname with
  | none => rfl
  | some tbl =>
      simp only
      have hcols : ∀ c ∈ tbl.columns, c.primary_key = true → c.type = ColType.int :=
        hint tbl (tablesByName_mem htbn).1
      cases hpk : tbl.columns.filter (·.primary_key) with
      | nil => rfl
      | cons pkCol rest =>
          cases rest with
          | nil => exact rowLoop_e_indep S e1 e2 tname tbl.columns pkCol.name hcols rows 0 _
          | cons b t => rfl

theorem processTables_e_indep (S : Seeded) (e1 e2 : Nat → String) (rows : Nat)
    (s : Schema)
    (hint : ∀ tbl ∈ s.tables, ∀ c ∈ tbl.columns,
      c.primary_key = true → c.type = ColType.int) :
    ∀ (ts : List String) (st : GState),
      processTables S e1 rows s ts st = processTables S e2 rows s ts st := by
  intro ts
  induction ts with
  | nil => intro st; rfl
  | cons t ts' ih =>
      intro st
      simp only [processTables]
      rw [processTable_e_indep S e1 e2 rows s t st hint]
      cases hpt : processTable S e2 rows s t st with
      | error er => rfl
      | ok pr =>
          obtain ⟨trows, st1⟩ := pr
          simp only
          rw [ih st1]

/-! ## Claim theorems C3 (corrected) -/

/-- C3 counterexample: for a schema whose primary key has type `str`,
`_pk_generator` draws from `uuid.uuid4()` — OS entropy the seed does not
control — so two runs with identical seeded streams but different entropy
produce different output.  This refutes byte-identical output "for every
schema including those whose primary-key columns have a non-int type". -/
theorem nonint_pk_output_depends_on_entropy :
    generate strPkSchema ["t"] 1 S0 (fun _ => "run1") = .ok [("t", [["run1"]])] ∧
    generate strPkSchema ["t"] 1 S0 (fun _ => "run2") = .ok [("t", [["run2"]])] ∧
    ([("t", [["run1"]])] : List (String × List (List String))) ≠ [("t", [["run2"]])] :=
  ⟨rfl, rfl, by decide⟩

/-- C3 amended: for a fixed seed (hence fixed seeded streams), a fixed
schema, table order and `rows_per_table`, two runs produce identical output
provided every primary-key column has type `int` — then `_pk_generator`
never consults the entropy stream, which is the only seed-independent
source. -/
theorem generation_deterministic_given_int_pks
    (s : Schema) (order : List String) (rows : Nat) (S : Seeded)
    (e1 e2 : Nat → String) (hint : allIntPk s = true) :
    generate s order rows S e1 = generate s order rows S e2 := by
  have hint' : ∀ tbl ∈ s.tables, ∀ c ∈ tbl.columns,
      c.primary_key = true → c.type = ColType.int := by
    unfold allIntPk at hint
    simp only [List.all_eq_true] at hint
    intro tbl htbl c hc hpk
    have hx := hint tbl htbl c hc
    rw [hpk] at hx
    simpa using hx
  unfold generate
  rw [processTables_e_indep S e1 e2 rows s hint' order {}]

theorem generation_deterministic_given_int_pks_witness :
    allIntPk usersOrders = true ∧
    generate usersOrders ["users", "orders"] 2 S0 e0
      = generate usersOrders ["users", "orders"] 2 S0 (fun n => "other" ++ toString n) :=
  ⟨by decide, generation_deterministic_given_int_pks usersOrders ["users", "orders"] 2 S0
    e0 (fun n => "other" ++ toString n) (by decide)⟩

end SynthData

namespace SynthData

/-! ## Claim theorems C7 (corrected), C9, C10 -/

/-- C7 counterexample: a column named "email" whose explicit hint names no
`Faker` attribute is synthesised by the type fallback (`fake.word()` for the
default `str` type), not by the name-inferred "email" provider, even though
name inference would have produced a recognised provider.  This refutes the
claim that an unrecognized hint falls through to name-based inference. -/
theorem unrecognized_hint_skips_name_inference :
    generate_scalar S0 "t" { name := "email", faker := some "no_such_provider" } {}
      = .ok (S0.fval "word" 0, { fpos := 1 }) ∧
    infer_provider "email" = some "email" ∧
    fakerHasAttr "email" = true ∧
    S0.fval "word" 0 ≠ S0.fval "email" 0 :=
  ⟨rfl, rfl, by decide, by decide⟩

/-- C7 amended: the provider is resolved as
`col.get("faker") or _infer_provider(col["name"])`: a present non-empty hint
wins outright and name inference is never consulted; if that hint is not a
recognised `Faker` attribute, synthesis goes straight to the type-based
fallback. -/
theorem provider_resolution_priority (c : Column) (h : String)
    (hf : c.faker = some h) (hne : h ≠ "") :
    resolveProvider c = some h ∧
    (fakerHasAttr h = false → c.unique = false → ∀ (S : Seeded) (tname : String)
      (st : GState), generate_scalar S tname c st = .ok (fallbackCell S c.type st)) := by
  have hres : resolveProvider c = some h := by
    unfold resolveProvider
    rw [hf]
    simp only
    rw [if_neg hne]
  refine ⟨hres, ?_⟩
  intro hnotattr huniq S tname st
  unfold generate_scalar
  rw [hres]
  simp only
  rw [huniq, if_neg Bool.false_ne_true]
  unfold genOnce
  simp only
  have hcond' : ¬ ((decide (h ≠ "") && fakerHasAttr h) = true) := by
    rw [hnotattr]
    simp
  rw [if_neg hcond']

theorem provider_resolution_priority_witness :
    resolveProvider { name := "email", faker := some "no_such_provider" }
      = some "no_such_provider" ∧
    generate_scalar S0 "u" { name := "email", faker := some "no_such_provider" } {}
      = .ok (fallbackCell S0 ColType.str {}) := by
  have h := provider_resolution_priority
    { name := "email", faker := some "no_such_provider" } "no_such_provider" rfl
    (by decide)
  exact ⟨h.1, h.2 (by decide) rfl S0 "u" {}⟩

/-- C9: a foreign-key column is dispatched before the 5% nullability check:
whatever the nullable flag and the null draw, the emitted cell is sampled
from the referenced parent's primary-key pool (never the empty marker), and
only the `random` position advances. -/
theorem fk_column_never_null (S : Seeded) (e : Nat → String) (tname : String)
    (c : Column) (fk : ForeignKey) (i : Nat) (st : GState) (cs : List String)
    (hpk : c.primary_key = false) (hfk : c.foreign_key = some fk)
    (hcs : (alookup fk.ref_table st.pools).getD [] = cs) (hne : cs ≠ []) :
    ∃ v, v ∈ cs ∧ ∀ b, genCell S e tname { c with nullable := b } i st
      = .ok (v, st.bumpR) := by
  obtain ⟨nm, ty, ds, pk, fkf, nb, uq, fkr⟩ := c
  simp only at hpk hfk
  subst hpk
  subst hfk
  have hpos : 0 < cs.length := List.length_pos.mpr hne
  have hlt := Nat.mod_lt (S.rand st.rpos) hpos
  refine ⟨cs.getD (S.rand st.rpos % cs.length) "", ?_, ?_⟩
  · rw [List.getD_eq_getElem?_getD, List.getElem?_eq_getElem hlt]
    simp only [Option.getD_some]
    exact List.getElem_mem hlt
  · intro b
    unfold genCell
    rw [if_neg Bool.false_ne_true]
    simp only
    rw [hcs]
    have hemp : cs.isEmpty = false := by
      cases cs with
      | nil => exact absurd rfl hne
      | cons a l => rfl
    rw [hemp, if_neg Bool.false_ne_true]

/-- There is a parent pool with two values; the foreign-key cell is one of
them, for either value of the nullable flag. -/
theorem fk_column_never_null_witness :
    ∃ v, v ∈ ["1", "2"] ∧ ∀ b,
      genCell S0 e0 "t" { fkCol "x" "P" "pid" with nullable := b } 0
        { pools := [("P", ["1", "2"])] }
      = .ok (v, ({ pools := [("P", ["1", "2"])] } : GState).bumpR) :=
  fk_column_never_null S0 e0 "t" (fkCol "x" "P" "pid") ⟨"P", "pid", none⟩ 0
    { pools := [("P", ["1", "2"])] } ["1", "2"] rfl rfl rfl (by decide)

/-- C10: for a column that is unique, nullable, and not a key, a firing 5%
null draw emits the empty value and advances only the `random` position —
the uniqueness tracker is neither consulted nor updated — and in a concrete
two-row run the empty value is emitted twice in the unique column. -/
theorem null_branch_bypasses_unique_tracker :
    (∀ (S : Seeded) (e : Nat → String) (tname : String) (c : Column) (i : Nat)
        (st : GState),
        c.primary_key = false → c.foreign_key = none → c.nullable = true →
        c.unique = true → S.nullb st.rpos = true →
        genCell S e tname c i st = .ok ("", { st with rpos := st.rpos + 1 })) ∧
    generate uniqNullSchema ["t"] 2 Snull e0 = .ok [("t", [["1", ""], ["2", ""]])] := by
  constructor
  · intro S e tname c i st hpk hfk hnul hniq hnb
    obtain ⟨nm, ty, ds, pk, fkf, nb, uq, fkr⟩ := c
    simp only at hpk hfk hnul hniq
    subst hpk
    subst hfk
    subst hnul
    simp [genCell, hnb, GState.bumpR]
  · rfl

theorem null_branch_bypasses_unique_tracker_witness :
    genCell Snull e0 "t" { name := "u", unique := true, nullable := true } 0
      ({} : GState) = .ok ("", { ({} : GState) with rpos := ({} : GState).rpos + 1 }) :=
  null_branch_bypasses_unique_tracker.1 Snull e0 "t"
    { name := "u", unique := true, nullable := true } 0 {} rfl rfl rfl rfl rfl

end SynthData
